import Mathlib

/-!
Shallow embedding of the duplicate-file searcher (src/main.cpp) and proofs
about its tiered duplicate-detection engine.

Modelling conventions:
* File paths are modelled as `Nat`: an opaque path representation carrying a
  decidable total order (the program sorts `std::string` paths with
  `ranges::sort`, i.e. by a total order over the path representation).
* File content is a `List Nat` of byte values.
* The xxhash3 128-bit digest is modelled as the identity on the sequence of
  bytes fed to it (a collision-free hash).  The spec treats full-tier digest
  equality as content equality, accepting cryptographic collisions as
  negligible, so the embedding idealises the hash as injective.
* `std::map` (main.cpp lines 79, 172) is modelled by its observable iteration
  behaviour: the distinct keys in ascending order, each paired with the list
  of values inserted for that key in insertion order.
* The filesystem at hashing time is a function `Nat → FileState`; a file can
  be readable with some current content, stat-able but unreadable
  (permission denied: `fs::file_size` succeeds, `std::ifstream` open fails,
  so every read yields zero bytes), or vanished (`fs::file_size` throws
  `fs::filesystem_error`, modelled as `Except.error`).
* The `thread_local` 32 KiB scratch buffer (line 78) persists across files
  and buckets.  Only its first 1024 bytes can ever reach a fingerprint: the
  full-buffered and streamed tiers hash exactly the `gcount()` bytes they
  just wrote, while the sampling tier hashes the fixed first 1024 bytes of
  the buffer.  The model therefore tracks that 1024-byte window, threading
  it through every read exactly as the code writes it.
-/

namespace DupSearch

/-- Scratch buffer capacity and streaming chunk size, `1<<15` (main.cpp line 77).
Also the small/large tier threshold (line 81). -/
def buffersize : Nat := 32768

/-- Sample-tier buffer size, `1<<10` (main.cpp line 97). -/
def windowsize : Nat := 1024

/-- Half of `windowsize` (main.cpp line 98): the head-sample and tail-sample size. -/
def halfsize : Nat := 512

/-- State of one file as seen by the hashing stage. -/
inductive FileState where
  /-- regular readable file with the given current content -/
  | ok (content : List Nat)
  /-- stat succeeds reporting the given size, but opening for read fails
      (e.g. permission denied), so every read yields zero bytes -/
  | denied (sz : Nat)
  /-- the file is gone: `fs::file_size` throws -/
  | vanished
deriving DecidableEq

/-- Bytes an `std::ifstream` on the file can deliver: the current content for a
readable file, nothing when the open failed (reads on a failed stream extract
nothing and `gcount()` is 0). -/
def readBytes : FileState → List Nat
  | .ok c => c
  | .denied _ => []
  | .vanished => []

/-- Result of `fs::file_size` (main.cpp line 81): the current size, or a thrown
`fs::filesystem_error` for a vanished file. -/
def statSize : FileState → Except Unit Nat
  | .ok c => .ok c.length
  | .denied n => .ok n
  | .vanished => .error ()

/-- Filesystem at hashing time: maps a path to the state of the file. -/
abbrev FS := Nat → FileState

/-- Last `halfsize` bytes of the content (the tail sample read after
`fin.seekg(-halfsize, end)`, main.cpp lines 102-103). -/
def tailHalf (c : List Nat) : List Nat := c.drop (c.length - halfsize)

/-- Write `xs` into the tracked buffer window at offset `off`, keeping the
window clipped to `windowsize` bytes. -/
def bufWrite (buf : List Nat) (off : Nat) (xs : List Nat) : List Nat :=
  (buf.take off ++ xs ++ buf.drop (off + xs.length)).take windowsize

/-- Fuel-driven splitting of a content into successive reads of at most
`buffersize` bytes (the `while (fin.read(...).gcount())` loop,
main.cpp line 117).  The fuel is always instantiated with the content length,
which suffices because each step consumes at least one byte. -/
def chunksGo : Nat → List Nat → List (List Nat)
  | 0, _ => []
  | _, [] => []
  | fuel + 1, x :: xs => ((x :: xs).take buffersize) :: chunksGo fuel ((x :: xs).drop buffersize)

/-- Successive `buffersize`-byte reads delivered by streaming a whole content. -/
def chunksB (c : List Nat) : List (List Nat) := chunksGo c.length c

/-- The full-buffered tier loop (main.cpp lines 83-88): for each file, one
`read(buffer, buffersize)` and a hash over the `gcount()` bytes actually read.
Returns the (path, fingerprint) pairs in file order plus the final buffer
window. -/
def smallPass (fsys : FS) : List Nat → List Nat → List (Nat × List Nat) × List Nat
  | [], buf => ([], buf)
  | f :: fs, buf =>
    let c := readBytes (fsys f)
    let got := c.take buffersize
    let buf2 := bufWrite buf 0 got
    let rest := smallPass fsys fs buf2
    ((f, got) :: rest.1, rest.2)

/-- The sampling tier loop (main.cpp lines 95-107): read `halfsize` head bytes,
seek to `halfsize` before the end, read `halfsize` tail bytes, then hash the
fixed `windowsize` bytes of the buffer.  When the file currently holds fewer
than `halfsize` bytes the head read hits end-of-file and sets the fail state,
so the seek and the tail read do nothing: only the bytes present are written
and the rest of the hashed window keeps its previous (stale) content. -/
def samplePass (fsys : FS) : List Nat → List Nat → List (Nat × List Nat) × List Nat
  | [], buf => ([], buf)
  | f :: fs, buf =>
    let c := readBytes (fsys f)
    let buf2 :=
      if halfsize ≤ c.length then
        bufWrite (bufWrite buf 0 (c.take halfsize)) halfsize (tailHalf c)
      else
        bufWrite buf 0 c
    let rest := samplePass fsys fs buf2
    ((f, buf2) :: rest.1, rest.2)

/-- The full-streamed tier loop body (main.cpp lines 114-119): the file is read
in `buffersize` chunks, the incremental hash state absorbing the `gcount()`
bytes of each read; the digest therefore covers the concatenation of all
chunks.  The buffer window ends up holding the successive chunk writes. -/
def fullPass (fsys : FS) : List Nat → List Nat → List (Nat × List Nat) × List Nat
  | [], buf => ([], buf)
  | f :: fs, buf =>
    let c := readBytes (fsys f)
    let chs := chunksB c
    let buf2 := chs.foldl (fun b ch => bufWrite b 0 ch) buf
    let rest := fullPass fsys fs buf2
    ((f, chs.flatten) :: rest.1, rest.2)

/-- Iterating a `std::map` from digest to the vector of files inserted for
that digest (`map1`/`map2`, main.cpp line 79): the distinct keys in ascending
order, each mapped to the files bearing that key in insertion order. -/
def groupPairs (pairs : List (Nat × List Nat)) : List (List Nat) :=
  (((pairs.map Prod.snd).dedup).insertionSort (fun a b => a ≤ b)).map
    (fun k => (pairs.filter (fun pr => decide (pr.2 = k))).map Prod.fst)

/-- The refinement loop over the sampling-tier groups (main.cpp lines 111-125):
each group of 2 or more files is re-hashed with the full-streamed tier and its
sub-groups of 2 or more files are appended to the result (`map2` is cleared
between groups, so each group is re-partitioned independently); smaller groups
trigger no reads at all. -/
def refineLoop (fsys : FS) : List (List Nat) → List Nat → List (List Nat) × List Nat
  | [], buf => ([], buf)
  | g :: gs, buf =>
    if 1 < g.length then
      let pr := fullPass fsys g buf
      let subs := (groupPairs pr.1).filter (fun g2 => decide (1 < g2.length))
      let rest := refineLoop fsys gs pr.2
      (subs ++ rest.1, rest.2)
    else
      refineLoop fsys gs buf

/-- The tier-selection test of main.cpp line 81:
`fs::file_size(*filelist.cbegin()) <= buffersize`.  `none` when the bucket is
empty (the dereference would be invalid; unreachable, the caller only passes
buckets of 2 or more files) or when `fs::file_size` throws. -/
def tierIsSmall (fsys : FS) (filelist : List Nat) : Option Bool :=
  match filelist with
  | [] => none
  | f0 :: _ =>
    match statSize (fsys f0) with
    | .ok n => some (decide (n ≤ buffersize))
    | .error _ => none

/-- `hash_check` (main.cpp lines 74-126): group the same files of `filelist`
into the result.  If the current size of the first file is at most
`buffersize`, hash whole files directly (full-buffered tier) and keep the
groups of 2 or more files.  Otherwise run the sampling tier and refine each
of its groups of 2 or more files with the full-streamed tier.  The
`fs::file_size` call can throw (propagated as `Except.error`); an empty bucket
would dereference an end iterator and is modelled as an error (unreachable). -/
def hash_check (fsys : FS) (filelist : List Nat) (buf : List Nat) :
    Except Unit (List (List Nat) × List Nat) :=
  match filelist with
  | [] => .error ()
  | f0 :: _ =>
    match statSize (fsys f0) with
    | .error e => .error e
    | .ok n =>
      if n ≤ buffersize then
        let pr := smallPass fsys filelist buf
        .ok ((groupPairs pr.1).filter (fun g => decide (1 < g.length)), pr.2)
      else
        let pr := samplePass fsys filelist buf
        .ok (refineLoop fsys (groupPairs pr.1) pr.2)

/-- Result of the traversal/bucketing stage `search` (main.cpp lines 133-159). -/
structure ScanResult where
  /-- paths of zero-byte files, in traversal order (printed directly) -/
  emptyFiles : List Nat
  /-- the `size_map`: ascending file sizes, each with the non-empty files of
      that exact size in traversal order -/
  sizeMap : List (Nat × List Nat)
  /-- number of empty files -/
  emptyCount : Nat
  /-- number of regular files seen -/
  totalCount : Nat
  /-- total size of the non-empty files -/
  totalSize : Nat
deriving DecidableEq

/-- Ascending distinct non-zero sizes occurring in the traversal stream: the
key set of the `std::map` `size_map` (main.cpp line 172). -/
def sizeKeys (entries : List (Nat × Nat)) : List Nat :=
  (((entries.filter (fun e => decide (e.2 ≠ 0))).map Prod.snd).dedup).insertionSort
    (fun a b => a ≤ b)

/-- The vector `size_map[s]`: paths of the traversal entries of exact size `s`,
in traversal order (main.cpp line 148). -/
def bucketOf (entries : List (Nat × Nat)) (s : Nat) : List Nat :=
  (entries.filter (fun e => decide (e.2 = s))).map Prod.fst

/-- `search` (main.cpp lines 133-159) over the traversal stream of
(path, size) pairs of regular files: zero-byte files go to the empty list and
are counted; other files are routed into the size bucket for their exact
size; the totals are accumulated. -/
def search (entries : List (Nat × Nat)) : ScanResult where
  emptyFiles := (entries.filter (fun e => decide (e.2 = 0))).map Prod.fst
  sizeMap := (sizeKeys entries).map (fun s => (s, bucketOf entries s))
  emptyCount := ((entries.filter (fun e => decide (e.2 = 0))).map Prod.fst).length
  totalCount := entries.length
  totalSize := ((entries.filter (fun e => decide (e.2 ≠ 0))).map Prod.snd).sum

/-- One printed duplicate group (main.cpp lines 186-195). -/
structure GroupRecord where
  /-- the sequential group number `num` -/
  index : Nat
  /-- the common file size of the bucket the group came from -/
  size : Nat
  /-- the member count `paths.size()` -/
  count : Nat
  /-- the member paths, sorted by `ranges::sort` -/
  paths : List Nat
deriving DecidableEq

/-- The whole observable report of one run (standard output of the program). -/
structure Report where
  /-- the "Empty file list" section -/
  emptyFiles : List Nat
  /-- the "Empty:" count -/
  emptyCount : Nat
  /-- the "Total:" count -/
  totalCount : Nat
  /-- the "Size:" total -/
  totalSize : Nat
  /-- the printed duplicate groups in emission order -/
  groups : List GroupRecord
  /-- the "Redundant data size" total `rdsize` -/
  rdsize : Nat
deriving DecidableEq

/-- Emission of the groups of one bucket (main.cpp lines 186-195): each group
gets the next sequential index and its paths sorted. -/
def emitGroups (sz : Nat) : Nat → List (List Nat) → List GroupRecord
  | _, [] => []
  | num, g :: gs =>
    { index := num + 1, size := sz, count := g.length,
      paths := g.insertionSort (fun a b => a ≤ b) } :: emitGroups sz (num + 1) gs

/-- Redundant bytes contributed by the groups of one bucket
(`rdsize += filesize * (paths.size()-1)`, main.cpp line 188). -/
def addedSize (sz : Nat) (gs : List (List Nat)) : Nat :=
  (gs.map (fun g => sz * (g.length - 1))).sum

/-- The bucket loop of `duplicate_file_search` (main.cpp lines 177-196):
buckets are visited in ascending size order, buckets of at most one file are
skipped, `hash_check` partitions the rest, and every resulting group is
numbered, accounted and emitted.  A thrown `fs::filesystem_error` aborts the
whole loop (it is caught only in `main`, lines 218-224). -/
def processBuckets (fsys : FS) : List (Nat × List Nat) → Nat → Nat → List Nat →
    Except Unit (List GroupRecord × Nat)
  | [], _, rd, _ => .ok ([], rd)
  | (sz, paths) :: rest, num, rd, buf =>
    if paths.length ≤ 1 then processBuckets fsys rest num rd buf
    else
      match hash_check fsys paths buf with
      | .error e => .error e
      | .ok out =>
        match processBuckets fsys rest (num + out.1.length) (rd + addedSize sz out.1) out.2 with
        | .error e => .error e
        | .ok tl => .ok (emitGroups sz num out.1 ++ tl.1, tl.2)

/-- `duplicate_file_search` (main.cpp lines 170-200): bucket the traversal
stream by size, run the tiered hashing over every multi-file bucket, emit the
groups and the redundant-byte total.  `Except.error` is the uncaught
`fs::filesystem_error` reaching the handler in `main`: the run aborts and no
report is produced. -/
def duplicate_file_search (fsys : FS) (entries : List (Nat × Nat)) (buf : List Nat) :
    Except Unit Report :=
  let sc := search entries
  match processBuckets fsys sc.sizeMap 0 0 buf with
  | .error e => .error e
  | .ok out =>
    .ok { emptyFiles := sc.emptyFiles, emptyCount := sc.emptyCount,
          totalCount := sc.totalCount, totalSize := sc.totalSize,
          groups := out.1, rdsize := out.2 }

/-- A file of an unchanged filesystem: a path and its byte content. -/
structure SFile where
  /-- the path -/
  path : Nat
  /-- the byte content -/
  content : List Nat
deriving DecidableEq

/-- Hashing-time filesystem of an unchanged file set: every listed file is
readable with its recorded content, everything else is absent. -/
def staticFS (files : List SFile) : FS := fun p =>
  match files.find? (fun f => decide (f.path = p)) with
  | some f => .ok f.content
  | none => .vanished

/-- Traversal stream of an unchanged file set: one (path, size) pair per file,
the size being the exact content length. -/
def staticEntries (files : List SFile) : List (Nat × Nat) :=
  files.map (fun f => (f.path, f.content.length))

/-- A whole run over an unchanged file set. -/
def runStatic (files : List SFile) (buf : List Nat) : Except Unit Report :=
  duplicate_file_search (staticFS files) (staticEntries files) buf

/-- Content of a path of an unchanged file set (the content of the first
listed file with that path). -/
def contentOf (files : List SFile) (p : Nat) : List Nat :=
  match files.find? (fun f => decide (f.path = p)) with
  | some f => f.content
  | none => []

/-- Spec-side description of the full-buffered tier acting on one bucket
("use full-buffered: read the entire file into one bounded read, hash the
bytes actually read", spec 4.1; its sub-groups of 2 or more files are final,
spec 4.2 step 4). -/
def specFullBufferedGroups (fsys : FS) (files : List Nat) : List (List Nat) :=
  (groupPairs (files.map (fun p => (p, (readBytes (fsys p)).take buffersize)))).filter
    (fun g => decide (1 < g.length))

/-- Spec-side sampling fingerprint: "read a fixed head sample and a fixed tail
sample from the end of the file, concatenate head+tail into one buffer, hash
that buffer" (spec 4.1). -/
def specSampleFP (c : List Nat) : List Nat := c.take halfsize ++ tailHalf c

/-- Spec-side description of the large-file path on one bucket: partition by
the sampling fingerprint, then re-partition each sub-group of 2 or more files
by the full-content fingerprint; the final groups of 2 or more files remain
(spec 4.2 steps 2-3). -/
def specTwoTierGroups (fsys : FS) (files : List Nat) : List (List Nat) :=
  (((groupPairs (files.map (fun p => (p, specSampleFP (readBytes (fsys p)))))).filter
      (fun g => decide (1 < g.length))).map
    (fun g =>
      (groupPairs (g.map (fun p => (p, readBytes (fsys p))))).filter
        (fun g2 => decide (1 < g2.length)))).flatten

/-- A fresh buffer window (concrete stand-in for the indeterminate initial
content of the scratch buffer; the theorems quantify over arbitrary initial
windows wherever the buffer content is irrelevant). -/
def bufZero : List Nat := List.replicate windowsize 0

/-- Concrete unchanged file set used by witnesses: two files with equal
3-byte content and one 1-byte file. -/
def demoDup : List SFile := [⟨1, [3, 1, 4]⟩, ⟨2, [3, 1, 4]⟩, ⟨3, [9]⟩]

/-- Scenario 1 of the spec: files a, b of 10 identical bytes and c of 10
different bytes. -/
def scenario1 : List SFile :=
  [⟨1, List.replicate 10 7⟩, ⟨2, List.replicate 10 7⟩, ⟨3, List.replicate 10 8⟩]

/-- Scenario 3 of the spec: three empty files. -/
def scenario3 : List SFile := [⟨1, []⟩, ⟨2, []⟩, ⟨3, []⟩]

/-- Hashing-time filesystem with two stat-able but unreadable files
(permission denied, 10 bytes each by stat). -/
def fsysDenied : FS := fun p =>
  if p = 1 then .denied 10 else if p = 2 then .denied 10 else .vanished

/-- Traversal stream matching `fsysDenied`: both files were bucketed at
10 bytes. -/
def entriesDenied : List (Nat × Nat) := [(1, 10), (2, 10)]

/-- Hashing-time filesystem where paths 1 and 2 are genuine 5-byte
duplicates, path 4 is a readable 7-byte file and path 3 has vanished. -/
def fsysAbort : FS := fun p =>
  if p = 1 then .ok (List.replicate 5 1)
  else if p = 2 then .ok (List.replicate 5 1)
  else if p = 4 then .ok (List.replicate 7 9)
  else .vanished

/-- Traversal stream matching `fsysAbort`: path 3 was seen at 7 bytes but
vanishes before hashing. -/
def entriesAbort : List (Nat × Nat) := [(1, 5), (2, 5), (3, 7), (4, 7)]

/-- Hashing-time filesystem for the truncation race: path 1 still holds its
40000 bytes, path 2 has been truncated to 300 bytes since bucketing. -/
def fsysTrunc : FS := fun p =>
  if p = 1 then .ok (List.replicate 40000 1)
  else if p = 2 then .ok (List.replicate 300 2)
  else .vanished

/-- Traversal stream matching `fsysTrunc`: both files were bucketed at
40000 bytes. -/
def entriesTrunc : List (Nat × Nat) := [(1, 40000), (2, 40000)]

/-- The report the program produces on `demoDup`. -/
def demoReport : Report :=
  { emptyFiles := [], emptyCount := 0, totalCount := 3, totalSize := 7,
    groups := [{ index := 1, size := 3, count := 2, paths := [1, 2] }],
    rdsize := 3 }

/-- The report the program produces on `scenario1`. -/
def scenario1Report : Report :=
  { emptyFiles := [], emptyCount := 0, totalCount := 3, totalSize := 30,
    groups := [{ index := 1, size := 10, count := 2, paths := [1, 2] }],
    rdsize := 10 }

/-- The report the program produces on `scenario3`. -/
def scenario3Report : Report :=
  { emptyFiles := [1, 2, 3], emptyCount := 3, totalCount := 3, totalSize := 0,
    groups := [], rdsize := 0 }

/-- The report the program produces on the two unreadable files of
`fsysDenied`. -/
def deniedReport : Report :=
  { emptyFiles := [], emptyCount := 0, totalCount := 2, totalSize := 20,
    groups := [{ index := 1, size := 10, count := 2, paths := [1, 2] }],
    rdsize := 10 }

end DupSearch

deriving instance DecidableEq for Except

namespace DupSearch

/-! Basic facts about the read model. -/

theorem chunksGo_flatten : ∀ (fuel : Nat) (c : List Nat), c.length ≤ fuel →
    (chunksGo fuel c).flatten = c := by
  intro fuel
  induction fuel with
  | zero =>
    intro c hc
    have : c = [] := List.eq_nil_of_length_eq_zero (Nat.le_zero.mp hc)
    simp [this, chunksGo]
  | succ n ih =>
    intro c hc
    match c with
    | [] => simp [chunksGo]
    | x :: xs =>
      have hlen : ((x :: xs).drop buffersize).length ≤ n := by
        have hb : (0 : Nat) < buffersize := by decide
        simp only [List.length_drop, List.length_cons]
        simp only [List.length_cons] at hc
        omega
      simp only [chunksGo, List.flatten_cons, ih _ hlen, List.take_append_drop]

theorem chunksB_flatten (c : List Nat) : (chunksB c).flatten = c :=
  chunksGo_flatten c.length c (Nat.le_refl _)

theorem length_take_halfsize {c : List Nat} (h : halfsize ≤ c.length) :
    (c.take halfsize).length = halfsize := by
  simp only [List.length_take]
  omega

theorem length_tailHalf {c : List Nat} (h : halfsize ≤ c.length) :
    (tailHalf c).length = halfsize := by
  simp only [tailHalf, List.length_drop]
  omega

theorem bufWrite_zero (buf xs : List Nat) :
    bufWrite buf 0 xs = (xs ++ buf.drop xs.length).take windowsize := by
  simp [bufWrite]

/-- Writing a half-window at offset 0 and another half-window at offset
`halfsize` fills the hashed window completely, whatever it held before. -/
theorem window_overwrite (buf : List Nat) {h t : List Nat}
    (hh : h.length = halfsize) (ht : t.length = halfsize) :
    bufWrite (bufWrite buf 0 h) halfsize t = h ++ t := by
  rw [bufWrite_zero]
  unfold bufWrite
  have h512 : ((h ++ buf.drop h.length).take windowsize).take halfsize = h := by
    rw [List.take_take, (by decide : halfsize ⊓ windowsize = halfsize),
      List.take_append_eq_append_take, List.take_of_length_le (le_of_eq hh), hh,
      Nat.sub_self, List.take_zero, List.append_nil]
  have hlen : (h ++ t).length = windowsize := by
    rw [List.length_append, hh, ht]; decide
  rw [h512, List.take_append_eq_append_take, hlen, Nat.sub_self, List.take_zero,
    List.append_nil, List.take_of_length_le (le_of_eq hlen)]

/-- After a full head read and a full tail read, the hashed window holds
exactly the head sample followed by the tail sample: no stale byte survives. -/
theorem sample_window (buf : List Nat) {c : List Nat} (h : halfsize ≤ c.length) :
    bufWrite (bufWrite buf 0 (c.take halfsize)) halfsize (tailHalf c) =
      c.take halfsize ++ tailHalf c :=
  window_overwrite buf (length_take_halfsize h) (length_tailHalf h)

end DupSearch

namespace DupSearch

/-! Characterisation of the three hashing loops. -/

theorem smallPass_fst (fsys : FS) : ∀ (l buf : List Nat),
    (smallPass fsys l buf).1 =
      l.map (fun p => (p, (readBytes (fsys p)).take buffersize)) := by
  intro l
  induction l with
  | nil => intro buf; simp [smallPass]
  | cons f fs ih => intro buf; simp [smallPass, ih]

theorem fullPass_fst (fsys : FS) : ∀ (l buf : List Nat),
    (fullPass fsys l buf).1 = l.map (fun p => (p, readBytes (fsys p))) := by
  intro l
  induction l with
  | nil => intro buf; simp [fullPass]
  | cons f fs ih => intro buf; simp [fullPass, ih, chunksB_flatten]

/-- As long as every file in the list still holds at least `halfsize` bytes,
the sampling fingerprints are exactly the head+tail samples, independent of
the buffer content inherited from earlier reads. -/
theorem samplePass_fst_ge (fsys : FS) : ∀ (l buf : List Nat),
    (∀ p ∈ l, halfsize ≤ (readBytes (fsys p)).length) →
    (samplePass fsys l buf).1 =
      l.map (fun p => (p, specSampleFP (readBytes (fsys p)))) := by
  intro l
  induction l with
  | nil => intro buf _; simp [samplePass]
  | cons f fs ih =>
    intro buf hall
    have hf := hall f (List.mem_cons_self f fs)
    simp only [samplePass, if_pos hf, sample_window _ hf, List.map_cons]
    rw [ih _ (fun p hp => hall p (List.mem_cons_of_mem f hp))]
    simp [specSampleFP]

theorem smallPass_map_fst (fsys : FS) (l buf : List Nat) :
    (smallPass fsys l buf).1.map Prod.fst = l := by
  have hcomp : (Prod.fst ∘ fun p : Nat => (p, (readBytes (fsys p)).take buffersize)) = id := rfl
  rw [smallPass_fst, List.map_map, hcomp, List.map_id]

theorem fullPass_map_fst (fsys : FS) (l buf : List Nat) :
    (fullPass fsys l buf).1.map Prod.fst = l := by
  have hcomp : (Prod.fst ∘ fun p : Nat => (p, readBytes (fsys p))) = id := rfl
  rw [fullPass_fst, List.map_map, hcomp, List.map_id]

theorem samplePass_map_fst (fsys : FS) : ∀ (l buf : List Nat),
    (samplePass fsys l buf).1.map Prod.fst = l := by
  intro l
  induction l with
  | nil => intro buf; simp [samplePass]
  | cons f fs ih => intro buf; simp [samplePass, ih]

/-! Facts about the digest-keyed map grouping. -/

theorem mem_group_iff {pairs : List (Nat × List Nat)} {k : List Nat} {p : Nat} :
    p ∈ (pairs.filter (fun pr => decide (pr.2 = k))).map Prod.fst ↔ (p, k) ∈ pairs := by
  constructor
  · intro hp
    obtain ⟨pr, hpr, hfst⟩ := List.mem_map.mp hp
    have h2 := List.mem_filter.mp hpr
    have hk : pr.2 = k := of_decide_eq_true h2.2
    have hpk : pr = (p, k) := by cases pr; simp_all
    exact hpk ▸ h2.1
  · intro hp
    exact List.mem_map.mpr ⟨(p, k), List.mem_filter.mpr ⟨hp, by simp⟩, rfl⟩

theorem group_mem_groupPairs {pairs : List (Nat × List Nat)} {k : List Nat}
    (hk : k ∈ pairs.map Prod.snd) :
    (pairs.filter (fun pr => decide (pr.2 = k))).map Prod.fst ∈ groupPairs pairs := by
  unfold groupPairs
  exact List.mem_map_of_mem _ ((List.mem_insertionSort _).mpr (List.mem_dedup.mpr hk))

theorem mem_groupPairs_pair {pairs : List (Nat × List Nat)} {p q : Nat} {k : List Nat}
    (hp : (p, k) ∈ pairs) (hq : (q, k) ∈ pairs) :
    ∃ g ∈ groupPairs pairs, p ∈ g ∧ q ∈ g :=
  ⟨_, group_mem_groupPairs (List.mem_map_of_mem Prod.snd hp),
    mem_group_iff.mpr hp, mem_group_iff.mpr hq⟩

theorem exists_key_of_mem_groupPairs {pairs : List (Nat × List Nat)} {g : List Nat}
    (hg : g ∈ groupPairs pairs) :
    ∃ k, g = (pairs.filter (fun pr => decide (pr.2 = k))).map Prod.fst := by
  unfold groupPairs at hg
  obtain ⟨k, _, hk2⟩ := List.mem_map.mp hg
  exact ⟨k, hk2.symm⟩

theorem mem_pairs_of_mem_groupPairs {pairs : List (Nat × List Nat)} {g : List Nat} {p : Nat}
    (hg : g ∈ groupPairs pairs) (hp : p ∈ g) :
    ∃ k, (p, k) ∈ pairs ∧ g = (pairs.filter (fun pr => decide (pr.2 = k))).map Prod.fst := by
  obtain ⟨k, hk⟩ := exists_key_of_mem_groupPairs hg
  exact ⟨k, mem_group_iff.mp (hk ▸ hp), hk⟩

theorem groupPairs_subset {pairs : List (Nat × List Nat)} {g : List Nat} {p : Nat}
    (hg : g ∈ groupPairs pairs) (hp : p ∈ g) :
    p ∈ pairs.map Prod.fst := by
  obtain ⟨k, hk, _⟩ := mem_pairs_of_mem_groupPairs hg hp
  exact List.mem_map_of_mem Prod.fst hk

theorem snd_unique_of_fst_nodup {α β : Type} {pairs : List (α × β)}
    (h : (pairs.map Prod.fst).Nodup) {p : α} {k1 k2 : β}
    (h1 : (p, k1) ∈ pairs) (h2 : (p, k2) ∈ pairs) : k1 = k2 := by
  induction pairs with
  | nil => cases h1
  | cons pr rest ih =>
    simp only [List.map_cons, List.nodup_cons] at h
    rcases List.mem_cons.mp h1 with e1 | m1
    · rcases List.mem_cons.mp h2 with e2 | m2
      · exact (Prod.ext_iff.mp (e1.trans e2.symm)).2
      · refine absurd ?_ h.1
        have hm : p ∈ rest.map Prod.fst := List.mem_map_of_mem Prod.fst m2
        rw [← e1]
        exact hm
    · rcases List.mem_cons.mp h2 with e2 | m2
      · refine absurd ?_ h.1
        have hm : p ∈ rest.map Prod.fst := List.mem_map_of_mem Prod.fst m1
        rw [← e2]
        exact hm
      · exact ih h.2 m1 m2

theorem group_nodup_of_fst_nodup {pairs : List (Nat × List Nat)}
    (h : (pairs.map Prod.fst).Nodup) (k : List Nat) :
    ((pairs.filter (fun pr => decide (pr.2 = k))).map Prod.fst).Nodup :=
  ((List.filter_sublist _).map Prod.fst).nodup h

theorem groupPairs_nodup_mem {pairs : List (Nat × List Nat)} {g : List Nat}
    (h : (pairs.map Prod.fst).Nodup) (hg : g ∈ groupPairs pairs) : g.Nodup := by
  obtain ⟨k, hk⟩ := exists_key_of_mem_groupPairs hg
  exact hk ▸ group_nodup_of_fst_nodup h k

theorem groupPairs_pairwise_disjoint {pairs : List (Nat × List Nat)}
    (h : (pairs.map Prod.fst).Nodup) :
    (groupPairs pairs).Pairwise List.Disjoint := by
  unfold groupPairs
  rw [List.pairwise_map]
  have hnd : ((pairs.map Prod.snd).dedup.insertionSort (fun a b => a ≤ b)).Nodup :=
    (List.perm_insertionSort _ _).nodup_iff.mpr (List.nodup_dedup _)
  refine hnd.imp ?_
  intro k1 k2 hne x hx1 hx2
  exact hne (snd_unique_of_fst_nodup h (mem_group_iff.mp hx1) (mem_group_iff.mp hx2))

theorem groupPairs_flatten_nodup {pairs : List (Nat × List Nat)}
    (h : (pairs.map Prod.fst).Nodup) : (groupPairs pairs).flatten.Nodup :=
  List.nodup_flatten.mpr
    ⟨fun _ hl => groupPairs_nodup_mem h hl, groupPairs_pairwise_disjoint h⟩

theorem flatten_sublist {l1 l2 : List (List Nat)} (h : l1.Sublist l2) :
    l1.flatten.Sublist l2.flatten := by
  induction h with
  | slnil => exact List.Sublist.refl _
  | cons a _ ih => exact ih.trans (List.sublist_append_right _ _)
  | cons₂ a _ ih => simpa only [List.flatten_cons] using ih.append_left a

theorem one_lt_length_of_two_mem {l : List Nat} {p q : Nat}
    (hpq : p ≠ q) (hp : p ∈ l) (hq : q ∈ l) : 1 < l.length := by
  match l with
  | [] => cases hp
  | [a] =>
    simp only [List.mem_singleton] at hp hq
    exact absurd (hp.trans hq.symm) hpq
  | a :: b :: t => simp only [List.length_cons]; omega

end DupSearch

namespace DupSearch

/-! Characterisation of `hash_check` and its refinement loop. -/

theorem refineLoop_fst (fsys : FS) : ∀ (gs : List (List Nat)) (buf : List Nat),
    (refineLoop fsys gs buf).1 =
      ((gs.filter (fun g => decide (1 < g.length))).map
        (fun g => (groupPairs (g.map (fun p => (p, readBytes (fsys p))))).filter
          (fun g2 => decide (1 < g2.length)))).flatten := by
  intro gs
  induction gs with
  | nil => intro buf; simp [refineLoop]
  | cons g gs ih =>
    intro buf
    by_cases hg : 1 < g.length
    · simp only [refineLoop, List.filter_cons, ih, fullPass_fst]
      simp [hg, ih]
    · simp only [refineLoop, List.filter_cons, ih]
      simp [hg, ih]

theorem hash_check_small (fsys : FS) {f0 : Nat} {rest : List Nat} {n : Nat}
    (buf : List Nat) (hs : statSize (fsys f0) = .ok n) (hn : n ≤ buffersize) :
    hash_check fsys (f0 :: rest) buf =
      .ok (specFullBufferedGroups fsys (f0 :: rest),
        (smallPass fsys (f0 :: rest) buf).2) := by
  simp [hash_check, hs, hn, specFullBufferedGroups, smallPass_fst]

theorem hash_check_large (fsys : FS) {f0 : Nat} {rest : List Nat} {n : Nat}
    (buf : List Nat) (hs : statSize (fsys f0) = .ok n) (hn : ¬ n ≤ buffersize) :
    hash_check fsys (f0 :: rest) buf =
      .ok (refineLoop fsys (groupPairs (samplePass fsys (f0 :: rest) buf).1)
        (samplePass fsys (f0 :: rest) buf).2) := by
  simp [hash_check, hs, hn]

/-- On a bucket whose files all still hold at least `halfsize` bytes, the
large-file path computes exactly the spec-side two-tier refinement. -/
theorem hash_check_large_spec (fsys : FS) {f0 : Nat} {rest : List Nat} {n : Nat}
    (buf : List Nat) (hs : statSize (fsys f0) = .ok n) (hn : ¬ n ≤ buffersize)
    (hall : ∀ p ∈ f0 :: rest, halfsize ≤ (readBytes (fsys p)).length) :
    ∃ buf2, hash_check fsys (f0 :: rest) buf =
      .ok (specTwoTierGroups fsys (f0 :: rest), buf2) := by
  rw [hash_check_large fsys buf hs hn]
  refine ⟨(refineLoop fsys (groupPairs (samplePass fsys (f0 :: rest) buf).1)
    (samplePass fsys (f0 :: rest) buf).2).2, ?_⟩
  have h2 : (refineLoop fsys (groupPairs (samplePass fsys (f0 :: rest) buf).1)
      (samplePass fsys (f0 :: rest) buf).2).1 = specTwoTierGroups fsys (f0 :: rest) := by
    rw [refineLoop_fst, samplePass_fst_ge fsys (f0 :: rest) buf hall]
    rfl
  rw [← h2]

theorem map_fst_pair_id (l : List Nat) (f : Nat → List Nat) :
    (l.map (fun p => (p, f p))).map Prod.fst = l := by
  have hcomp : (Prod.fst ∘ fun p : Nat => (p, f p)) = id := rfl
  rw [List.map_map, hcomp, List.map_id]

theorem mem_of_mem_filterGroup {pairs : List (Nat × List Nat)} {p : Nat}
    (h : p ∈ ((groupPairs pairs).filter
      (fun g2 => decide (1 < g2.length))).flatten) :
    p ∈ pairs.map Prod.fst := by
  obtain ⟨s, hs, hps⟩ := List.mem_flatten.mp h
  exact groupPairs_subset (List.mem_of_mem_filter hs) hps

theorem refineLoop_flatten_mem {fsys : FS} : ∀ {gs : List (List Nat)} {buf : List Nat}
    {p : Nat}, p ∈ (refineLoop fsys gs buf).1.flatten → ∃ g ∈ gs, p ∈ g := by
  intro gs buf p hp
  rw [refineLoop_fst] at hp
  obtain ⟨s, hs, hps⟩ := List.mem_flatten.mp hp
  obtain ⟨inner, hinner, hsinner⟩ := List.mem_flatten.mp hs
  obtain ⟨g1, hg1, hin⟩ := List.mem_map.mp hinner
  refine ⟨g1, List.mem_of_mem_filter hg1, ?_⟩
  have hmem : p ∈ (g1.map (fun q => (q, readBytes (fsys q)))).map Prod.fst := by
    subst hin
    exact groupPairs_subset (List.mem_of_mem_filter hsinner) hps
  rwa [map_fst_pair_id] at hmem

end DupSearch

namespace DupSearch

theorem hash_check_error (fsys : FS) {f0 : Nat} (rest buf : List Nat)
    (hs : statSize (fsys f0) = .error ()) :
    hash_check fsys (f0 :: rest) buf = .error () := by
  simp [hash_check, hs]

theorem hash_check_subset {fsys : FS} {l buf : List Nat}
    {out : List (List Nat) × List Nat} (h : hash_check fsys l buf = .ok out)
    {g : List Nat} {p : Nat} (hg : g ∈ out.1) (hp : p ∈ g) : p ∈ l := by
  match l with
  | [] => simp [hash_check] at h
  | f0 :: rest =>
    cases hss : statSize (fsys f0) with
    | error e =>
      rw [hash_check_error fsys rest buf (by cases e; exact hss)] at h
      exact Except.noConfusion h
    | ok n =>
      by_cases hn : n ≤ buffersize
      · rw [hash_check_small fsys buf hss hn] at h
        injection h with h2
        rw [← h2] at hg
        have hg1 : g ∈ specFullBufferedGroups fsys (f0 :: rest) := hg
        have hg2 := List.mem_of_mem_filter hg1
        have hp2 := groupPairs_subset hg2 hp
        rwa [map_fst_pair_id] at hp2
      · rw [hash_check_large fsys buf hss hn] at h
        injection h with h2
        rw [← h2] at hg
        have hflat : p ∈ (refineLoop fsys
            (groupPairs (samplePass fsys (f0 :: rest) buf).1)
            (samplePass fsys (f0 :: rest) buf).2).1.flatten :=
          List.mem_flatten.mpr ⟨g, hg, hp⟩
        obtain ⟨g1, hg1, hpg1⟩ := refineLoop_flatten_mem hflat
        have hsub := groupPairs_subset hg1 hpg1
        rwa [samplePass_map_fst] at hsub

theorem hash_check_ge2 {fsys : FS} {l buf : List Nat}
    {out : List (List Nat) × List Nat} (h : hash_check fsys l buf = .ok out)
    {g : List Nat} (hg : g ∈ out.1) : 1 < g.length := by
  match l with
  | [] => simp [hash_check] at h
  | f0 :: rest =>
    cases hss : statSize (fsys f0) with
    | error e =>
      rw [hash_check_error fsys rest buf (by cases e; exact hss)] at h
      exact Except.noConfusion h
    | ok n =>
      by_cases hn : n ≤ buffersize
      · rw [hash_check_small fsys buf hss hn] at h
        injection h with h2
        rw [← h2] at hg
        have hg1 : g ∈ specFullBufferedGroups fsys (f0 :: rest) := hg
        exact of_decide_eq_true (List.mem_filter.mp hg1).2
      · rw [hash_check_large fsys buf hss hn] at h
        injection h with h2
        rw [← h2] at hg
        have hg2 : g ∈ (((groupPairs (samplePass fsys (f0 :: rest) buf).1).filter
            (fun g0 => decide (1 < g0.length))).map
              (fun g0 => (groupPairs (g0.map (fun p => (p, readBytes (fsys p))))).filter
                (fun g2 => decide (1 < g2.length)))).flatten := by
          rw [← refineLoop_fst]
          exact hg
        obtain ⟨inner, hin, hgin⟩ := List.mem_flatten.mp hg2
        obtain ⟨g1, _, hmk⟩ := List.mem_map.mp hin
        rw [← hmk] at hgin
        exact of_decide_eq_true (List.mem_filter.mp hgin).2

theorem refineLoop_flatten_nodup {fsys : FS} : ∀ {gs : List (List Nat)} {buf : List Nat},
    (∀ g ∈ gs, g.Nodup) → gs.Pairwise List.Disjoint →
    ((refineLoop fsys gs buf).1.flatten).Nodup := by
  intro gs
  induction gs with
  | nil => intro buf _ _; simp [refineLoop]
  | cons g gs ih =>
    intro buf hnd hdisj
    by_cases hg : 1 < g.length
    · have hexp : (refineLoop fsys (g :: gs) buf).1 =
          ((groupPairs (fullPass fsys g buf).1).filter
            (fun g2 => decide (1 < g2.length))) ++
            (refineLoop fsys gs (fullPass fsys g buf).2).1 := by
        simp [refineLoop, hg]
      rw [hexp, List.flatten_append, List.nodup_append]
      refine ⟨?_, ?_, ?_⟩
      · exact (flatten_sublist (List.filter_sublist _)).nodup
          (groupPairs_flatten_nodup
            (by rw [fullPass_map_fst]; exact hnd g (List.mem_cons_self g gs)))
      · exact ih (fun g2 h2 => hnd g2 (List.mem_cons_of_mem g h2)) hdisj.of_cons
      · intro x hx1 hx2
        have hxg : x ∈ g := by
          have hm := mem_of_mem_filterGroup hx1
          rwa [fullPass_map_fst] at hm
        obtain ⟨g2, hg2, hxg2⟩ := refineLoop_flatten_mem hx2
        exact List.rel_of_pairwise_cons hdisj hg2 hxg hxg2
    · have hexp : refineLoop fsys (g :: gs) buf = refineLoop fsys gs buf := by
        simp [refineLoop, hg]
      rw [hexp]
      exact ih (fun g2 h2 => hnd g2 (List.mem_cons_of_mem g h2)) hdisj.of_cons

theorem hash_check_flatten_nodup {fsys : FS} {l buf : List Nat}
    {out : List (List Nat) × List Nat} (hl : l.Nodup)
    (h : hash_check fsys l buf = .ok out) : out.1.flatten.Nodup := by
  match l with
  | [] => simp [hash_check] at h
  | f0 :: rest =>
    cases hss : statSize (fsys f0) with
    | error e =>
      rw [hash_check_error fsys rest buf (by cases e; exact hss)] at h
      exact Except.noConfusion h
    | ok n =>
      by_cases hn : n ≤ buffersize
      · rw [hash_check_small fsys buf hss hn] at h
        injection h with h2
        rw [← h2]
        refine (flatten_sublist (List.filter_sublist _)).nodup
          (groupPairs_flatten_nodup ?_)
        rw [map_fst_pair_id]
        exact hl
      · rw [hash_check_large fsys buf hss hn] at h
        injection h with h2
        rw [← h2]
        refine refineLoop_flatten_nodup ?_ ?_
        · intro g2 hg2
          exact groupPairs_nodup_mem (by rw [samplePass_map_fst]; exact hl) hg2
        · exact groupPairs_pairwise_disjoint (by rw [samplePass_map_fst]; exact hl)

end DupSearch

namespace DupSearch

/-! Facts about the bucketing stage. -/

theorem mem_sizeKeys {entries : List (Nat × Nat)} {s : Nat} :
    s ∈ sizeKeys entries ↔ (∃ p, (p, s) ∈ entries) ∧ s ≠ 0 := by
  unfold sizeKeys
  rw [List.mem_insertionSort, List.mem_dedup]
  constructor
  · intro hs
    obtain ⟨⟨p, s2⟩, he, hsnd⟩ := List.mem_map.mp hs
    simp only at hsnd
    subst hsnd
    have h2 := List.mem_filter.mp he
    exact ⟨⟨p, h2.1⟩, of_decide_eq_true h2.2⟩
  · rintro ⟨⟨p, hp⟩, hs⟩
    exact List.mem_map.mpr ⟨(p, s), List.mem_filter.mpr ⟨hp, by simpa using hs⟩, rfl⟩

theorem mem_bucketOf {entries : List (Nat × Nat)} {s p : Nat} :
    p ∈ bucketOf entries s ↔ (p, s) ∈ entries := by
  unfold bucketOf
  constructor
  · intro hp
    obtain ⟨⟨q, s2⟩, he, hfst⟩ := List.mem_map.mp hp
    simp only at hfst
    subst hfst
    have h2 := List.mem_filter.mp he
    have hs : s2 = s := of_decide_eq_true h2.2
    exact hs ▸ h2.1
  · intro hp
    exact List.mem_map.mpr ⟨(p, s), List.mem_filter.mpr ⟨hp, by simp⟩, rfl⟩

theorem sizeKeys_sorted (entries : List (Nat × Nat)) :
    List.Sorted (fun a b : Nat => a ≤ b) (sizeKeys entries) :=
  List.sorted_insertionSort _ _

theorem sizeKeys_nodup (entries : List (Nat × Nat)) : (sizeKeys entries).Nodup :=
  (List.perm_insertionSort _ _).nodup_iff.mpr (List.nodup_dedup _)

theorem search_sizeMap_fst (entries : List (Nat × Nat)) :
    (search entries).sizeMap.map Prod.fst = sizeKeys entries := by
  simp only [search]
  exact map_fst_pair_id _ _

theorem mem_search_sizeMap {entries : List (Nat × Nat)} {s : Nat} {b : List Nat}
    (h : (s, b) ∈ (search entries).sizeMap) :
    s ∈ sizeKeys entries ∧ b = bucketOf entries s := by
  simp only [search] at h
  obtain ⟨k, hk, he⟩ := List.mem_map.mp h
  have e1 : k = s := congrArg Prod.fst he
  have e2 := congrArg Prod.snd he
  subst e1
  exact ⟨hk, e2.symm⟩

theorem search_sizeMap_exists {entries : List (Nat × Nat)} {s : Nat}
    (h : s ∈ sizeKeys entries) : (s, bucketOf entries s) ∈ (search entries).sizeMap := by
  simp only [search]
  exact List.mem_map_of_mem _ h

theorem bucket_nodup {entries : List (Nat × Nat)}
    (h : (entries.map Prod.fst).Nodup) (s : Nat) : (bucketOf entries s).Nodup :=
  ((List.filter_sublist _).map Prod.fst).nodup h

theorem search_sizeMap_pairwise (entries : List (Nat × Nat))
    (h : (entries.map Prod.fst).Nodup) :
    (search entries).sizeMap.Pairwise (fun a b => ∀ p ∈ a.2, p ∉ b.2) := by
  simp only [search]
  rw [List.pairwise_map]
  refine (sizeKeys_nodup entries).imp ?_
  intro s1 s2 hne p hp1 hp2
  exact hne (snd_unique_of_fst_nodup h (mem_bucketOf.mp hp1) (mem_bucketOf.mp hp2))

theorem mem_search_emptyFiles {entries : List (Nat × Nat)} {p : Nat} :
    p ∈ (search entries).emptyFiles ↔ (p, 0) ∈ entries := by
  simp only [search]
  constructor
  · intro hp
    obtain ⟨⟨q, s2⟩, he, hfst⟩ := List.mem_map.mp hp
    simp only at hfst
    subst hfst
    have h2 := List.mem_filter.mp he
    have hs : s2 = 0 := of_decide_eq_true h2.2
    exact hs ▸ h2.1
  · intro hp
    exact List.mem_map.mpr ⟨(p, 0), List.mem_filter.mpr ⟨hp, by simp⟩, rfl⟩

/-! Facts about group emission. -/

theorem emit_mem {sz : Nat} : ∀ {num : Nat} {gs : List (List Nat)} {r : GroupRecord},
    r ∈ emitGroups sz num gs → ∃ g ∈ gs, r.size = sz ∧ r.count = g.length ∧
      r.paths = g.insertionSort (fun a b => a ≤ b) := by
  intro num gs
  induction gs generalizing num with
  | nil => intro r h; cases h
  | cons g gs ih =>
    intro r h
    rcases List.mem_cons.mp h with e | m
    · exact ⟨g, List.mem_cons_self g gs, by rw [e], by rw [e], by rw [e]⟩
    · obtain ⟨g2, hg2, hr⟩ := ih m
      exact ⟨g2, List.mem_cons_of_mem g hg2, hr⟩

theorem emit_exists {sz : Nat} : ∀ {num : Nat} {gs : List (List Nat)} {g : List Nat},
    g ∈ gs → ∃ r ∈ emitGroups sz num gs,
      r.paths = g.insertionSort (fun a b => a ≤ b) ∧ r.size = sz := by
  intro num gs
  induction gs generalizing num with
  | nil => intro g h; cases h
  | cons g0 gs ih =>
    intro g h
    rcases List.mem_cons.mp h with e | m
    · subst e
      exact ⟨_, List.mem_cons_self _ _, rfl, rfl⟩
    · obtain ⟨r, hr, he⟩ := ih m
      exact ⟨r, List.mem_cons_of_mem _ hr, he⟩

theorem emit_length (sz : Nat) : ∀ (num : Nat) (gs : List (List Nat)),
    (emitGroups sz num gs).length = gs.length := by
  intro num gs
  induction gs generalizing num with
  | nil => simp [emitGroups]
  | cons g gs ih => simp [emitGroups, ih]

theorem emit_index (sz : Nat) : ∀ (num : Nat) (gs : List (List Nat)),
    (emitGroups sz num gs).map GroupRecord.index = List.range' (num + 1) gs.length := by
  intro num gs
  induction gs generalizing num with
  | nil => simp [emitGroups]
  | cons g gs ih =>
    simp only [emitGroups, List.map_cons, ih, List.length_cons]
    rw [List.range'_succ]

theorem emit_sum (sz : Nat) : ∀ (num : Nat) (gs : List (List Nat)),
    ((emitGroups sz num gs).map (fun r => r.size * (r.count - 1))).sum =
      addedSize sz gs := by
  intro num gs
  induction gs generalizing num with
  | nil => simp [emitGroups, addedSize]
  | cons g gs ih => simp [emitGroups, addedSize, ih num.succ, List.sum_cons]

theorem emit_paths (sz : Nat) : ∀ (num : Nat) (gs : List (List Nat)),
    (emitGroups sz num gs).map GroupRecord.paths =
      gs.map (fun g => g.insertionSort (fun a b => a ≤ b)) := by
  intro num gs
  induction gs generalizing num with
  | nil => simp [emitGroups]
  | cons g gs ih => simp only [emitGroups, List.map_cons, ih]

end DupSearch

namespace DupSearch

/-! Facts about the bucket loop. -/

theorem pairwise_le_of_all_eq {L : List Nat} {a : Nat} (h : ∀ x ∈ L, x = a) :
    List.Pairwise (fun x y : Nat => x ≤ y) L := by
  induction L with
  | nil => exact List.Pairwise.nil
  | cons b t ih =>
    refine List.Pairwise.cons ?_ (ih (fun x hx => h x (List.mem_cons_of_mem b hx)))
    intro y hy
    rw [h b (List.mem_cons_self b t), h y (List.mem_cons_of_mem b hy)]

theorem processBuckets_rdsize {fsys : FS} : ∀ (bks : List (Nat × List Nat)) (num rd : Nat)
    (buf : List Nat) (out : List GroupRecord × Nat),
    processBuckets fsys bks num rd buf = .ok out →
    out.2 = rd + (out.1.map (fun r => r.size * (r.count - 1))).sum := by
  intro bks
  induction bks with
  | nil =>
    intro num rd buf out h
    simp only [processBuckets] at h
    injection h with h2
    rw [← h2]
    simp
  | cons hd tl ih =>
    intro num rd buf out h
    obtain ⟨sz, paths⟩ := hd
    simp only [processBuckets] at h
    by_cases hle : paths.length ≤ 1
    · rw [if_pos hle] at h
      exact ih _ _ _ _ h
    · rw [if_neg hle] at h
      cases hhc : hash_check fsys paths buf with
      | error e => simp only [hhc] at h; exact Except.noConfusion h
      | ok hout =>
        simp only [hhc] at h
        cases hrec : processBuckets fsys tl (num + hout.1.length)
            (rd + addedSize sz hout.1) hout.2 with
        | error e => simp only [hrec] at h; exact Except.noConfusion h
        | ok tlout =>
          simp only [hrec] at h
          injection h with h2
          rw [← h2]
          have hih := ih _ _ _ _ hrec
          simp only [List.map_append, List.sum_append, emit_sum]
          omega

theorem processBuckets_index {fsys : FS} : ∀ (bks : List (Nat × List Nat)) (num rd : Nat)
    (buf : List Nat) (out : List GroupRecord × Nat),
    processBuckets fsys bks num rd buf = .ok out →
    out.1.map GroupRecord.index = List.range' (num + 1) out.1.length := by
  intro bks
  induction bks with
  | nil =>
    intro num rd buf out h
    simp only [processBuckets] at h
    injection h with h2
    rw [← h2]
    simp
  | cons hd tl ih =>
    intro num rd buf out h
    obtain ⟨sz, paths⟩ := hd
    simp only [processBuckets] at h
    by_cases hle : paths.length ≤ 1
    · rw [if_pos hle] at h
      exact ih _ _ _ _ h
    · rw [if_neg hle] at h
      cases hhc : hash_check fsys paths buf with
      | error e => simp only [hhc] at h; exact Except.noConfusion h
      | ok hout =>
        simp only [hhc] at h
        cases hrec : processBuckets fsys tl (num + hout.1.length)
            (rd + addedSize sz hout.1) hout.2 with
        | error e => simp only [hrec] at h; exact Except.noConfusion h
        | ok tlout =>
          simp only [hrec] at h
          injection h with h2
          rw [← h2]
          have hih := ih _ _ _ _ hrec
          simp only [List.map_append, List.length_append, emit_index, emit_length, hih]
          have hr := List.range'_append (num + 1) hout.1.length tlout.1.length 1
          simp only [Nat.one_mul] at hr
          rw [(by omega : num + hout.1.length + 1 = num + 1 + hout.1.length), hr,
            Nat.add_comm tlout.1.length hout.1.length]

theorem processBuckets_members {fsys : FS} : ∀ (bks : List (Nat × List Nat)) (num rd : Nat)
    (buf : List Nat) (out : List GroupRecord × Nat),
    processBuckets fsys bks num rd buf = .ok out →
    ∀ r ∈ out.1, ∃ b, (r.size, b) ∈ bks ∧ (∀ p ∈ r.paths, p ∈ b) ∧
      1 < r.paths.length ∧ r.count = r.paths.length ∧
      List.Sorted (fun a b : Nat => a ≤ b) r.paths := by
  intro bks
  induction bks with
  | nil =>
    intro num rd buf out h
    simp only [processBuckets] at h
    injection h with h2
    rw [← h2]
    intro r hr
    cases hr
  | cons hd tl ih =>
    intro num rd buf out h
    obtain ⟨sz, paths⟩ := hd
    simp only [processBuckets] at h
    by_cases hle : paths.length ≤ 1
    · rw [if_pos hle] at h
      intro r hr
      obtain ⟨b, hb, hrest⟩ := ih _ _ _ _ h r hr
      exact ⟨b, List.mem_cons_of_mem _ hb, hrest⟩
    · rw [if_neg hle] at h
      cases hhc : hash_check fsys paths buf with
      | error e => simp only [hhc] at h; exact Except.noConfusion h
      | ok hout =>
        simp only [hhc] at h
        cases hrec : processBuckets fsys tl (num + hout.1.length)
            (rd + addedSize sz hout.1) hout.2 with
        | error e => simp only [hrec] at h; exact Except.noConfusion h
        | ok tlout =>
          simp only [hrec] at h
          injection h with h2
          rw [← h2]
          intro r hr
          rcases List.mem_append.mp hr with hl | hrr
          · obtain ⟨g, hg, hsz, hcount, hpaths⟩ := emit_mem hl
            have hlen : r.paths.length = g.length := by
              rw [hpaths, List.length_insertionSort]
            refine ⟨paths, ?_, ?_, ?_, ?_, ?_⟩
            · rw [hsz]; exact List.mem_cons_self _ _
            · intro p hp
              rw [hpaths] at hp
              exact hash_check_subset hhc hg ((List.mem_insertionSort _).mp hp)
            · rw [hlen]; exact hash_check_ge2 hhc hg
            · rw [hcount, hlen]
            · rw [hpaths]; exact List.sorted_insertionSort _ _
          · obtain ⟨b, hb, hrest⟩ := ih _ _ _ _ hrec r hrr
            exact ⟨b, List.mem_cons_of_mem _ hb, hrest⟩

theorem processBuckets_sizes_sorted {fsys : FS} : ∀ (bks : List (Nat × List Nat))
    (num rd : Nat) (buf : List Nat) (out : List GroupRecord × Nat),
    List.Sorted (fun a b : Nat => a ≤ b) (bks.map Prod.fst) →
    processBuckets fsys bks num rd buf = .ok out →
    List.Sorted (fun a b : Nat => a ≤ b) (out.1.map GroupRecord.size) := by
  intro bks
  induction bks with
  | nil =>
    intro num rd buf out _ h
    simp only [processBuckets] at h
    injection h with h2
    rw [← h2]
    simp
  | cons hd tl ih =>
    intro num rd buf out hsort h
    obtain ⟨sz, paths⟩ := hd
    simp only [List.map_cons] at hsort
    simp only [processBuckets] at h
    by_cases hle : paths.length ≤ 1
    · rw [if_pos hle] at h
      exact ih _ _ _ _ hsort.of_cons h
    · rw [if_neg hle] at h
      cases hhc : hash_check fsys paths buf with
      | error e => simp only [hhc] at h; exact Except.noConfusion h
      | ok hout =>
        simp only [hhc] at h
        cases hrec : processBuckets fsys tl (num + hout.1.length)
            (rd + addedSize sz hout.1) hout.2 with
        | error e => simp only [hrec] at h; exact Except.noConfusion h
        | ok tlout =>
          simp only [hrec] at h
          injection h with h2
          rw [← h2]
          simp only [List.map_append]
          unfold List.Sorted
          rw [List.pairwise_append]
          refine ⟨?_, ih _ _ _ _ hsort.of_cons hrec, ?_⟩
          · refine pairwise_le_of_all_eq (a := sz) ?_
            intro x hx
            obtain ⟨r, hr, he⟩ := List.mem_map.mp hx
            obtain ⟨g, _, hsz, _, _⟩ := emit_mem hr
            rw [← he, hsz]
          · intro x hx y hy
            obtain ⟨r, hr, he⟩ := List.mem_map.mp hx
            obtain ⟨g, _, hsz, _, _⟩ := emit_mem hr
            obtain ⟨r2, hr2, he2⟩ := List.mem_map.mp hy
            obtain ⟨b2, hb2, _⟩ := processBuckets_members _ _ _ _ _ hrec r2 hr2
            have hmem : r2.size ∈ tl.map Prod.fst := List.mem_map_of_mem Prod.fst hb2
            rw [← he, hsz, ← he2]
            exact List.rel_of_pairwise_cons hsort hmem

end DupSearch

namespace DupSearch

theorem flatten_map_sort_nodup {gs : List (List Nat)} (h : gs.flatten.Nodup) :
    ((gs.map (fun g => g.insertionSort (fun a b => a ≤ b))).flatten).Nodup := by
  rw [List.nodup_flatten] at h ⊢
  constructor
  · intro l hl
    obtain ⟨g, hg, he⟩ := List.mem_map.mp hl
    rw [← he]
    exact (List.perm_insertionSort _ g).nodup_iff.mpr (h.1 g hg)
  · rw [List.pairwise_map]
    refine h.2.imp ?_
    intro a b hd x hx1 hx2
    exact hd ((List.mem_insertionSort _).mp hx1) ((List.mem_insertionSort _).mp hx2)

theorem processBuckets_flatten_nodup {fsys : FS} : ∀ (bks : List (Nat × List Nat))
    (num rd : Nat) (buf : List Nat) (out : List GroupRecord × Nat),
    (∀ pr ∈ bks, (pr.2 : List Nat).Nodup) →
    bks.Pairwise (fun a b => ∀ p ∈ a.2, p ∉ b.2) →
    processBuckets fsys bks num rd buf = .ok out →
    ((out.1.map GroupRecord.paths).flatten).Nodup := by
  intro bks
  induction bks with
  | nil =>
    intro num rd buf out _ _ h
    simp only [processBuckets] at h
    injection h with h2
    rw [← h2]
    simp
  | cons hd tl ih =>
    intro num rd buf out hnd hdisj h
    obtain ⟨sz, paths⟩ := hd
    simp only [processBuckets] at h
    by_cases hle : paths.length ≤ 1
    · rw [if_pos hle] at h
      exact ih _ _ _ _ (fun pr hpr => hnd pr (List.mem_cons_of_mem _ hpr)) hdisj.of_cons h
    · rw [if_neg hle] at h
      cases hhc : hash_check fsys paths buf with
      | error e => simp only [hhc] at h; exact Except.noConfusion h
      | ok hout =>
        simp only [hhc] at h
        cases hrec : processBuckets fsys tl (num + hout.1.length)
            (rd + addedSize sz hout.1) hout.2 with
        | error e => simp only [hrec] at h; exact Except.noConfusion h
        | ok tlout =>
          simp only [hrec] at h
          injection h with h2
          rw [← h2]
          simp only [List.map_append, List.flatten_append]
          rw [List.nodup_append]
          refine ⟨?_, ih _ _ _ _ (fun pr hpr => hnd pr (List.mem_cons_of_mem _ hpr))
            hdisj.of_cons hrec, ?_⟩
          · rw [emit_paths]
            exact flatten_map_sort_nodup
              (hash_check_flatten_nodup (hnd (sz, paths) (List.mem_cons_self _ _)) hhc)
          · intro x hx1 hx2
            rw [emit_paths] at hx1
            obtain ⟨l, hl, hxl⟩ := List.mem_flatten.mp hx1
            obtain ⟨g, hg, he⟩ := List.mem_map.mp hl
            have hxg : x ∈ g := by
              have hxs : x ∈ g.insertionSort (fun a b => a ≤ b) := by rw [he]; exact hxl
              exact (List.mem_insertionSort _).mp hxs
            have hxp : x ∈ paths := hash_check_subset hhc hg hxg
            obtain ⟨l2, hl2, hxl2⟩ := List.mem_flatten.mp hx2
            obtain ⟨r, hr, he2⟩ := List.mem_map.mp hl2
            obtain ⟨b, hb, hsub, _⟩ := processBuckets_members _ _ _ _ _ hrec r hr
            have hxb : x ∈ b := hsub x (by rw [he2]; exact hxl2)
            exact List.rel_of_pairwise_cons hdisj hb x hxp hxb

theorem groupPairs_key_eq {b : List Nat} {fp : Nat → List Nat} {g : List Nat} {p q : Nat}
    (hg : g ∈ groupPairs (b.map (fun x => (x, fp x)))) (hp : p ∈ g) (hq : q ∈ g) :
    fp p = fp q := by
  obtain ⟨k, hpk, hgk⟩ := mem_pairs_of_mem_groupPairs hg hp
  have hq2 : q ∈ ((b.map (fun x => (x, fp x))).filter
      (fun pr => decide (pr.2 = k))).map Prod.fst := by
    rw [← hgk]
    exact hq
  have hqk := mem_group_iff.mp hq2
  obtain ⟨x, _, hex⟩ := List.mem_map.mp hpk
  obtain ⟨y, _, hey⟩ := List.mem_map.mp hqk
  have e1 : x = p := congrArg Prod.fst hex
  have e2 : fp x = k := congrArg Prod.snd hex
  have e3 : y = q := congrArg Prod.fst hey
  have e4 : fp y = k := congrArg Prod.snd hey
  rw [← e1, ← e3, e2, e4]

theorem spec_small_sound {fsys : FS} {b g : List Nat} {p q : Nat}
    (hg : g ∈ specFullBufferedGroups fsys b) (hp : p ∈ g) (hq : q ∈ g) :
    (readBytes (fsys p)).take buffersize = (readBytes (fsys q)).take buffersize :=
  groupPairs_key_eq (List.mem_of_mem_filter hg) hp hq

theorem spec_small_subset {fsys : FS} {b g : List Nat} {p : Nat}
    (hg : g ∈ specFullBufferedGroups fsys b) (hp : p ∈ g) : p ∈ b := by
  have hm := groupPairs_subset (List.mem_of_mem_filter hg) hp
  rwa [map_fst_pair_id] at hm

theorem spec_two_tier_sound {fsys : FS} {b g : List Nat} {p q : Nat}
    (hg : g ∈ specTwoTierGroups fsys b) (hp : p ∈ g) (hq : q ∈ g) :
    readBytes (fsys p) = readBytes (fsys q) := by
  unfold specTwoTierGroups at hg
  obtain ⟨inner, hin, hgin⟩ := List.mem_flatten.mp hg
  obtain ⟨g1, _, he⟩ := List.mem_map.mp hin
  rw [← he] at hgin
  exact groupPairs_key_eq (List.mem_of_mem_filter hgin) hp hq

end DupSearch

namespace DupSearch

/-- Every spec-side group of a still-intact bucket of the run is emitted as a
record (its paths sorted). -/
theorem processBuckets_complete {fsys : FS} : ∀ (bks : List (Nat × List Nat))
    (num rd : Nat) (buf : List Nat) (out : List GroupRecord × Nat),
    processBuckets fsys bks num rd buf = .ok out →
    ∀ {s : Nat} {b : List Nat}, (s, b) ∈ bks → 1 < b.length →
    (∀ p ∈ b, ∃ c, fsys p = .ok c ∧ c.length = s) →
    ∀ {g : List Nat},
      ((s ≤ buffersize ∧ g ∈ specFullBufferedGroups fsys b) ∨
        (¬ s ≤ buffersize ∧ g ∈ specTwoTierGroups fsys b)) →
      ∃ r ∈ out.1, r.paths = g.insertionSort (fun a b => a ≤ b) := by
  intro bks
  induction bks with
  | nil =>
    intro num rd buf out h s b hmem
    cases hmem
  | cons hd tl ih =>
    intro num rd buf out h s b hmem hlen hstat g hg
    obtain ⟨sz, paths⟩ := hd
    simp only [processBuckets] at h
    rcases List.mem_cons.mp hmem with he | hm
    · have hs : s = sz := congrArg Prod.fst he
      have hbp : b = paths := congrArg Prod.snd he
      subst hs
      subst hbp
      have hle : ¬ b.length ≤ 1 := by omega
      rw [if_neg hle] at h
      cases hbc : b with
      | nil => rw [hbc] at hlen; simp at hlen
      | cons p0 rest =>
        subst hbc
        obtain ⟨c0, hc0, hcl⟩ := hstat p0 (List.mem_cons_self p0 rest)
        have hss : statSize (fsys p0) = .ok s := by
          rw [hc0]
          simp [statSize, hcl]
        by_cases hsz : s ≤ buffersize
        · rw [hash_check_small fsys buf hss hsz] at h
          simp only at h
          split at h
          · exact Except.noConfusion h
          · rename_i tlout hrec
            injection h with h2
            rw [← h2]
            rcases hg with ⟨_, hgm⟩ | ⟨hns, _⟩
            · obtain ⟨r, hr, hpaths, _⟩ := emit_exists hgm
              exact ⟨r, List.mem_append_left _ hr, hpaths⟩
            · exact absurd hsz hns
        · have h512 : ∀ p ∈ p0 :: rest, halfsize ≤ (readBytes (fsys p)).length := by
            intro p hp
            obtain ⟨c, hc, hcl2⟩ := hstat p hp
            rw [hc]
            simp only [readBytes]
            have hlt : buffersize < c.length := by
              rw [hcl2]
              exact Nat.lt_of_not_le hsz
            have hh : halfsize ≤ buffersize := by decide
            omega
          obtain ⟨buf2, hlarge⟩ := hash_check_large_spec fsys buf hss hsz h512
          rw [hlarge] at h
          simp only at h
          split at h
          · exact Except.noConfusion h
          · rename_i tlout hrec
            injection h with h2
            rw [← h2]
            rcases hg with ⟨hle2, _⟩ | ⟨_, hgm⟩
            · exact absurd hle2 hsz
            · obtain ⟨r, hr, hpaths, _⟩ := emit_exists hgm
              exact ⟨r, List.mem_append_left _ hr, hpaths⟩
    · by_cases hle : paths.length ≤ 1
      · rw [if_pos hle] at h
        exact ih _ _ _ _ h hm hlen hstat hg
      · rw [if_neg hle] at h
        cases hhc : hash_check fsys paths buf with
        | error e => simp only [hhc] at h; exact Except.noConfusion h
        | ok hout =>
          simp only [hhc] at h
          cases hrec : processBuckets fsys tl (num + hout.1.length)
              (rd + addedSize sz hout.1) hout.2 with
          | error e => simp only [hrec] at h; exact Except.noConfusion h
          | ok tlout =>
            simp only [hrec] at h
            injection h with h2
            rw [← h2]
            obtain ⟨r, hr, hpaths⟩ := ih _ _ _ _ hrec hm hlen hstat hg
            exact ⟨r, List.mem_append_right _ hr, hpaths⟩

/-- On a run whose buckets are all still intact, any two files of one emitted
record hold the same bytes. -/
theorem processBuckets_sound {fsys : FS} : ∀ (bks : List (Nat × List Nat))
    (num rd : Nat) (buf : List Nat) (out : List GroupRecord × Nat),
    processBuckets fsys bks num rd buf = .ok out →
    (∀ pr ∈ bks, ∀ p ∈ (pr.2 : List Nat), ∃ c, fsys p = .ok c ∧ c.length = pr.1) →
    ∀ r ∈ out.1, ∀ p q, p ∈ r.paths → q ∈ r.paths →
      readBytes (fsys p) = readBytes (fsys q) := by
  intro bks
  induction bks with
  | nil =>
    intro num rd buf out h _
    simp only [processBuckets] at h
    injection h with h2
    rw [← h2]
    intro r hr
    cases hr
  | cons hd tl ih =>
    intro num rd buf out h hstat
    obtain ⟨sz, paths⟩ := hd
    simp only [processBuckets] at h
    by_cases hle : paths.length ≤ 1
    · rw [if_pos hle] at h
      exact ih _ _ _ _ h (fun pr hpr => hstat pr (List.mem_cons_of_mem _ hpr))
    · rw [if_neg hle] at h
      have hbst : ∀ p ∈ paths, ∃ c, fsys p = .ok c ∧ c.length = sz :=
        hstat (sz, paths) (List.mem_cons_self _ _)
      cases hbc : paths with
      | nil => rw [hbc] at hle; simp at hle
      | cons p0 rest =>
        subst hbc
        obtain ⟨c0, hc0, hcl⟩ := hbst p0 (List.mem_cons_self p0 rest)
        have hss : statSize (fsys p0) = .ok sz := by
          rw [hc0]
          simp [statSize, hcl]
        by_cases hsz : sz ≤ buffersize
        · rw [hash_check_small fsys buf hss hsz] at h
          simp only at h
          split at h
          · exact Except.noConfusion h
          · rename_i tlout hrec
            injection h with h2
            rw [← h2]
            intro r hr p q hp hq
            rcases List.mem_append.mp hr with hl | hrr
            · obtain ⟨g, hg, _, _, hpaths⟩ := emit_mem hl
              rw [hpaths] at hp hq
              have hpg : p ∈ g := (List.mem_insertionSort _).mp hp
              have hqg : q ∈ g := (List.mem_insertionSort _).mp hq
              have htake := spec_small_sound hg hpg hqg
              obtain ⟨cp, hcp, hclp⟩ := hbst p (spec_small_subset hg hpg)
              obtain ⟨cq, hcq, hclq⟩ := hbst q (spec_small_subset hg hqg)
              rw [hcp, hcq]
              simp only [readBytes]
              rw [hcp] at htake
              rw [hcq] at htake
              simp only [readBytes] at htake
              rwa [List.take_of_length_le (by rw [hclp]; exact hsz),
                List.take_of_length_le (by rw [hclq]; exact hsz)] at htake
            · exact ih _ _ _ _ hrec
                (fun pr hpr => hstat pr (List.mem_cons_of_mem _ hpr)) r hrr p q hp hq
        · have h512 : ∀ p ∈ p0 :: rest, halfsize ≤ (readBytes (fsys p)).length := by
            intro p hp
            obtain ⟨c, hc, hcl2⟩ := hbst p hp
            rw [hc]
            simp only [readBytes]
            have hlt : buffersize < c.length := by
              rw [hcl2]
              exact Nat.lt_of_not_le hsz
            have hh : halfsize ≤ buffersize := by decide
            omega
          obtain ⟨buf2, hlarge⟩ := hash_check_large_spec fsys buf hss hsz h512
          rw [hlarge] at h
          simp only at h
          split at h
          · exact Except.noConfusion h
          · rename_i tlout hrec
            injection h with h2
            rw [← h2]
            intro r hr p q hp hq
            rcases List.mem_append.mp hr with hl | hrr
            · obtain ⟨g, hg, _, _, hpaths⟩ := emit_mem hl
              rw [hpaths] at hp hq
              exact spec_two_tier_sound hg ((List.mem_insertionSort _).mp hp)
                ((List.mem_insertionSort _).mp hq)
            · exact ih _ _ _ _ hrec
                (fun pr hpr => hstat pr (List.mem_cons_of_mem _ hpr)) r hrr p q hp hq

end DupSearch

namespace DupSearch

/-- On a run whose buckets are all still intact, the bucket loop never
aborts. -/
theorem processBuckets_ok {fsys : FS} : ∀ (bks : List (Nat × List Nat)) (num rd : Nat)
    (buf : List Nat),
    (∀ pr ∈ bks, ∀ p ∈ (pr.2 : List Nat), ∃ c, fsys p = .ok c ∧ c.length = pr.1) →
    ∃ out, processBuckets fsys bks num rd buf = .ok out := by
  intro bks
  induction bks with
  | nil =>
    intro num rd buf _
    exact ⟨([], rd), by simp [processBuckets]⟩
  | cons hd tl ih =>
    intro num rd buf hstat
    obtain ⟨sz, paths⟩ := hd
    have htl := fun pr hpr => hstat pr (List.mem_cons_of_mem _ hpr)
    by_cases hle : paths.length ≤ 1
    · obtain ⟨out, hout⟩ := ih num rd buf htl
      refine ⟨out, ?_⟩
      simp only [processBuckets]
      rw [if_pos hle]
      exact hout
    · cases hbc : paths with
      | nil => rw [hbc] at hle; simp at hle
      | cons p0 rest =>
        subst hbc
        obtain ⟨c0, hc0, hcl⟩ :=
          hstat (sz, p0 :: rest) (List.mem_cons_self _ _) p0 (List.mem_cons_self p0 rest)
        have hss : statSize (fsys p0) = .ok sz := by
          rw [hc0]
          simp [statSize, hcl]
        by_cases hsz : sz ≤ buffersize
        · obtain ⟨tlout, hrec⟩ := ih (num + (specFullBufferedGroups fsys (p0 :: rest)).length)
            (rd + addedSize sz (specFullBufferedGroups fsys (p0 :: rest)))
            (smallPass fsys (p0 :: rest) buf).2 htl
          refine ⟨(emitGroups sz num (specFullBufferedGroups fsys (p0 :: rest)) ++ tlout.1,
            tlout.2), ?_⟩
          simp only [processBuckets]
          rw [if_neg hle, hash_check_small fsys buf hss hsz]
          simp only [hrec]
        · have h512 : ∀ p ∈ p0 :: rest, halfsize ≤ (readBytes (fsys p)).length := by
            intro p hp
            obtain ⟨c, hc, hcl2⟩ := hstat (sz, p0 :: rest) (List.mem_cons_self _ _) p hp
            rw [hc]
            simp only [readBytes]
            have hlt : buffersize < c.length := by
              rw [hcl2]
              exact Nat.lt_of_not_le hsz
            have hh : halfsize ≤ buffersize := by decide
            omega
          obtain ⟨buf2, hlarge⟩ := hash_check_large_spec fsys buf hss hsz h512
          obtain ⟨tlout, hrec⟩ := ih (num + (specTwoTierGroups fsys (p0 :: rest)).length)
            (rd + addedSize sz (specTwoTierGroups fsys (p0 :: rest))) buf2 htl
          refine ⟨(emitGroups sz num (specTwoTierGroups fsys (p0 :: rest)) ++ tlout.1,
            tlout.2), ?_⟩
          simp only [processBuckets]
          rw [if_neg hle, hlarge]
          simp only [hrec]

/-! Facts about runs on an unchanged file set. -/

theorem staticEntries_fst (files : List SFile) :
    (staticEntries files).map Prod.fst = files.map SFile.path := by
  unfold staticEntries
  rw [List.map_map]
  rfl

theorem mem_staticEntries {files : List SFile} {p s : Nat} :
    (p, s) ∈ staticEntries files ↔ ∃ f ∈ files, f.path = p ∧ f.content.length = s := by
  unfold staticEntries
  constructor
  · intro h
    obtain ⟨f, hf, he⟩ := List.mem_map.mp h
    exact ⟨f, hf, congrArg Prod.fst he, congrArg Prod.snd he⟩
  · rintro ⟨f, hf, e1, e2⟩
    refine List.mem_map.mpr ⟨f, hf, ?_⟩
    rw [e1, e2]

theorem staticFS_eq {files : List SFile} (hnd : (files.map SFile.path).Nodup)
    {f : SFile} (hf : f ∈ files) : staticFS files f.path = .ok f.content := by
  unfold staticFS
  induction files with
  | nil => cases hf
  | cons g rest ih =>
    simp only [List.map_cons, List.nodup_cons] at hnd
    rcases List.mem_cons.mp hf with he | hm
    · subst he
      simp [List.find?]
    · by_cases hpg : g.path = f.path
      · exfalso
        apply hnd.1
        rw [hpg]
        exact List.mem_map_of_mem SFile.path hm
      · have hrec := ih hnd.2 hm
        rw [List.find?_cons_of_neg _ (by simpa using hpg)]
        exact hrec

theorem contentOf_eq (files : List SFile) (p : Nat) :
    readBytes (staticFS files p) = contentOf files p := by
  unfold staticFS contentOf
  cases hf : files.find? (fun f => decide (f.path = p)) with
  | none => simp only [hf]; rfl
  | some f => simp only [hf]; rfl

theorem static_bucket_intact {files : List SFile} (hnd : (files.map SFile.path).Nodup)
    {p s : Nat} (h : (p, s) ∈ staticEntries files) :
    ∃ c, staticFS files p = .ok c ∧ c.length = s := by
  obtain ⟨f, hf, e1, e2⟩ := mem_staticEntries.mp h
  subst e1
  exact ⟨f.content, staticFS_eq hnd hf, e2⟩

theorem static_sizeMap_intact {files : List SFile} (hnd : (files.map SFile.path).Nodup) :
    ∀ pr ∈ (search (staticEntries files)).sizeMap, ∀ p ∈ (pr.2 : List Nat),
      ∃ c, staticFS files p = .ok c ∧ c.length = pr.1 := by
  intro pr hpr p hp
  obtain ⟨sz, b⟩ := pr
  obtain ⟨_, hb⟩ := mem_search_sizeMap hpr
  rw [hb] at hp
  exact static_bucket_intact hnd (mem_bucketOf.mp hp)

theorem dfs_processBuckets {fsys : FS} {entries : List (Nat × Nat)} {buf : List Nat}
    {r : Report} (h : duplicate_file_search fsys entries buf = .ok r) :
    ∃ out, processBuckets fsys (search entries).sizeMap 0 0 buf = .ok out ∧
      r.groups = out.1 ∧ r.rdsize = out.2 ∧
      r.emptyFiles = (search entries).emptyFiles ∧
      r.emptyCount = (search entries).emptyCount ∧
      r.totalCount = (search entries).totalCount ∧
      r.totalSize = (search entries).totalSize := by
  simp only [duplicate_file_search] at h
  cases hpb : processBuckets fsys (search entries).sizeMap 0 0 buf with
  | error e => simp only [hpb] at h; exact Except.noConfusion h
  | ok out =>
    simp only [hpb] at h
    injection h with h2
    rw [← h2]
    exact ⟨out, rfl, rfl, rfl, rfl, rfl, rfl, rfl⟩

theorem dfs_ok_of {fsys : FS} {entries : List (Nat × Nat)} {buf : List Nat}
    {out : List GroupRecord × Nat}
    (hpb : processBuckets fsys (search entries).sizeMap 0 0 buf = .ok out) :
    duplicate_file_search fsys entries buf =
      .ok ⟨(search entries).emptyFiles, (search entries).emptyCount,
        (search entries).totalCount, (search entries).totalSize, out.1, out.2⟩ := by
  simp only [duplicate_file_search, hpb]

end DupSearch

namespace DupSearch

/-- C1: the spec demands that a read failure on one file during hashing only
excludes that file, is reported with path and cause, and never aborts the run
nor lets the file join a DuplicateGroup.  The code does neither: evaluating
the model shows that a bucket of two permission-denied files (every read
yields zero bytes, no exception, no report) is emitted as a DuplicateGroup
containing both unreadable files, and that a vanished first bucket member
makes `fs::file_size` throw so that the entire run aborts with no report at
all — the genuine size-5 duplicates of `fsysAbort` are lost. -/
theorem C1_read_failure_code_eval :
    duplicate_file_search fsysDenied entriesDenied bufZero = .ok deniedReport ∧
    duplicate_file_search fsysAbort entriesAbort bufZero = .error () := by
  constructor
  · decide
  · decide

/-- C4: the emitted DuplicateGroups form a partial partition: every group has
at least 2 members, every member was bucketed at exactly the group's size,
and no path occurs in two groups (nor twice in one). -/
theorem C4_partition (fsys : FS) (entries : List (Nat × Nat)) (buf : List Nat)
    (r : Report) (hnd : (entries.map Prod.fst).Nodup)
    (hr : duplicate_file_search fsys entries buf = .ok r) :
    (∀ G ∈ r.groups, 2 ≤ G.paths.length) ∧
    (∀ G ∈ r.groups, ∀ p ∈ G.paths, (p, G.size) ∈ entries) ∧
    ((r.groups.map GroupRecord.paths).flatten).Nodup := by
  obtain ⟨out, hpb, hgr, _, _, _, _, _⟩ := dfs_processBuckets hr
  refine ⟨?_, ?_, ?_⟩
  · intro G hG
    obtain ⟨b, _, _, hlen, _, _⟩ := processBuckets_members _ _ _ _ _ hpb G (hgr ▸ hG)
    omega
  · intro G hG p hp
    obtain ⟨b, hb, hsub, _, _, _⟩ := processBuckets_members _ _ _ _ _ hpb G (hgr ▸ hG)
    obtain ⟨_, hbk⟩ := mem_search_sizeMap hb
    have hpb2 := hsub p hp
    rw [hbk] at hpb2
    exact mem_bucketOf.mp hpb2
  · rw [hgr]
    refine processBuckets_flatten_nodup _ _ _ _ _ ?_ ?_ hpb
    · intro pr hpr
      obtain ⟨sz, b⟩ := pr
      obtain ⟨_, hbk⟩ := mem_search_sizeMap hpr
      have : b = bucketOf entries sz := hbk
      rw [this]
      exact bucket_nodup hnd sz
    · exact search_sizeMap_pairwise entries hnd

/-- C4 witness: the partition properties hold on the concrete demo run. -/
theorem C4_partition_witness :
    ((staticEntries demoDup).map Prod.fst).Nodup ∧
    runStatic demoDup bufZero = .ok demoReport ∧
    (∀ G ∈ demoReport.groups, 2 ≤ G.paths.length) :=
  ⟨by decide, by decide,
    (C4_partition (staticFS demoDup) (staticEntries demoDup) bufZero _
      (by decide) (by decide)).1⟩

/-- C7: the reported redundant-byte total is the sum over emitted groups of
size times (member count minus one); scenario 1 (two identical 10-byte files
and one distinct 10-byte file) yields exactly one group and 10 redundant
bytes. -/
theorem C7_redundant_bytes (fsys : FS) (entries : List (Nat × Nat)) (buf : List Nat)
    (r : Report) (hr : duplicate_file_search fsys entries buf = .ok r) :
    r.rdsize = (r.groups.map (fun G => G.size * (G.paths.length - 1))).sum ∧
    runStatic scenario1 bufZero = .ok scenario1Report := by
  constructor
  · obtain ⟨out, hpb, hgr, hrd, _, _, _, _⟩ := dfs_processBuckets hr
    have hsum := processBuckets_rdsize _ _ _ _ _ hpb
    have hcnt : ∀ G ∈ out.1, G.size * (G.count - 1) = G.size * (G.paths.length - 1) := by
      intro G hG
      obtain ⟨b, _, _, _, hc, _⟩ := processBuckets_members _ _ _ _ _ hpb G hG
      rw [hc]
    rw [hrd, hgr, hsum, Nat.zero_add, List.map_congr_left hcnt]
  · decide

/-- C7 witness: the redundant-byte formula evaluated on the concrete demo
run. -/
theorem C7_redundant_bytes_witness :
    runStatic demoDup bufZero = .ok demoReport ∧
    demoReport.rdsize =
      (demoReport.groups.map (fun G => G.size * (G.paths.length - 1))).sum :=
  ⟨by decide,
    (C7_redundant_bytes (staticFS demoDup) (staticEntries demoDup) bufZero _
      (by decide)).1⟩

/-- C8: the report is deterministic and reproducible: members of each group
are sorted by the total order on paths, group indexes are 1, 2, ... in
emission order, groups are emitted in ascending size order, and a second run
on the unchanged input is the very same value. -/
theorem C8_deterministic_report (fsys : FS) (entries : List (Nat × Nat))
    (buf : List Nat) (r : Report)
    (hr : duplicate_file_search fsys entries buf = .ok r) :
    (∀ G ∈ r.groups, List.Sorted (fun a b : Nat => a ≤ b) G.paths) ∧
    (r.groups.map GroupRecord.index = List.range' 1 r.groups.length) ∧
    List.Sorted (fun a b : Nat => a ≤ b) (r.groups.map GroupRecord.size) ∧
    duplicate_file_search fsys entries buf = duplicate_file_search fsys entries buf := by
  obtain ⟨out, hpb, hgr, _, _, _, _, _⟩ := dfs_processBuckets hr
  refine ⟨?_, ?_, ?_, rfl⟩
  · intro G hG
    obtain ⟨_, _, _, _, _, hsort⟩ := processBuckets_members _ _ _ _ _ hpb G (hgr ▸ hG)
    exact hsort
  · rw [hgr]
    have hidx := processBuckets_index _ _ _ _ _ hpb
    simpa using hidx
  · rw [hgr]
    refine processBuckets_sizes_sorted _ _ _ _ _ ?_ hpb
    rw [search_sizeMap_fst]
    exact sizeKeys_sorted entries

/-- C8 witness: the ordering properties evaluated on the concrete demo run. -/
theorem C8_deterministic_report_witness :
    runStatic demoDup bufZero = .ok demoReport ∧
    demoReport.groups.map GroupRecord.index =
      List.range' 1 demoReport.groups.length :=
  ⟨by decide,
    (C8_deterministic_report (staticFS demoDup) (staticEntries demoDup) bufZero _
      (by decide)).2.1⟩

/-- C10: the small-vs-large tier decision of a bucket queries the hashing-time
size of exactly the bucket's first file: any filesystem agreeing on the first
file (whatever the other members or their recorded sizes are) yields the same
decision, and `hash_check` dispatches solely on that one stat result. -/
theorem C10_tier_choice_first_member (fsys fsys2 : FS) (f0 : Nat)
    (rest rest2 buf : List Nat) (h2 : fsys2 f0 = fsys f0) :
    (tierIsSmall fsys2 (f0 :: rest2) = tierIsSmall fsys (f0 :: rest)) ∧
    (∀ n, statSize (fsys f0) = .ok n →
      tierIsSmall fsys (f0 :: rest) = some (decide (n ≤ buffersize)) ∧
      (n ≤ buffersize →
        hash_check fsys (f0 :: rest) buf =
          .ok ((groupPairs (smallPass fsys (f0 :: rest) buf).1).filter
              (fun g => decide (1 < g.length)),
            (smallPass fsys (f0 :: rest) buf).2)) ∧
      (¬ n ≤ buffersize →
        hash_check fsys (f0 :: rest) buf =
          .ok (refineLoop fsys (groupPairs (samplePass fsys (f0 :: rest) buf).1)
            (samplePass fsys (f0 :: rest) buf).2))) := by
  refine ⟨by simp [tierIsSmall, h2], ?_⟩
  intro n hss
  refine ⟨by simp [tierIsSmall, hss], ?_, ?_⟩
  · intro hn
    simp [hash_check, hss, hn]
  · intro hn
    simp [hash_check, hss, hn]

/-- C10 witness: the tier decision on a concrete bucket, with a second
filesystem agreeing only on the first file. -/
theorem C10_tier_choice_first_member_witness :
    ((fun _ : Nat => staticFS demoDup 1) 1 = staticFS demoDup 1) ∧
    tierIsSmall (fun _ : Nat => staticFS demoDup 1) (1 :: [5, 6]) =
      tierIsSmall (staticFS demoDup) (1 :: [2]) ∧
    statSize (staticFS demoDup 1) = .ok 3 ∧
    hash_check (staticFS demoDup) (1 :: [2]) bufZero =
      .ok ((groupPairs (smallPass (staticFS demoDup) (1 :: [2]) bufZero).1).filter
          (fun g => decide (1 < g.length)),
        (smallPass (staticFS demoDup) (1 :: [2]) bufZero).2) :=
  ⟨rfl,
    (C10_tier_choice_first_member (staticFS demoDup) (fun _ => staticFS demoDup 1)
      1 [2] [5, 6] bufZero rfl).1,
    by decide,
    ((C10_tier_choice_first_member (staticFS demoDup) (fun _ => staticFS demoDup 1)
      1 [2] [5, 6] bufZero rfl).2 3 (by decide)).2.1 (by decide)⟩

end DupSearch

namespace DupSearch

theorem readBytes_ok (c : List Nat) : readBytes (.ok c) = c := rfl

theorem contentOf_path {files : List SFile} (hnd : (files.map SFile.path).Nodup)
    {f : SFile} (hf : f ∈ files) : contentOf files f.path = f.content := by
  rw [← contentOf_eq, staticFS_eq hnd hf, readBytes_ok]

/-- C2: on an unchanged file set, any two distinct non-empty files with equal
byte content end up together in some emitted DuplicateGroup, on the
full-buffered path and on the sampling/full-streamed path alike. -/
theorem C2_completeness (files : List SFile) (buf : List Nat) (r : Report)
    (hnd : (files.map SFile.path).Nodup) (hr : runStatic files buf = .ok r)
    (f g : SFile) (hf : f ∈ files) (hg : g ∈ files)
    (hne : f.path ≠ g.path) (hcont : f.content = g.content)
    (hnil : f.content ≠ []) :
    ∃ G ∈ r.groups, f.path ∈ G.paths ∧ g.path ∈ G.paths := by
  obtain ⟨out, hpb, hgr, _, _, _, _, _⟩ := dfs_processBuckets hr
  have hs0 : f.content.length ≠ 0 := by
    intro h0
    exact hnil (List.length_eq_zero.mp h0)
  have hfe : (f.path, f.content.length) ∈ staticEntries files :=
    mem_staticEntries.mpr ⟨f, hf, rfl, rfl⟩
  have hge : (g.path, f.content.length) ∈ staticEntries files :=
    mem_staticEntries.mpr ⟨g, hg, rfl, by rw [hcont]⟩
  have hkey : f.content.length ∈ sizeKeys (staticEntries files) :=
    mem_sizeKeys.mpr ⟨⟨f.path, hfe⟩, hs0⟩
  have hfb : f.path ∈ bucketOf (staticEntries files) f.content.length :=
    mem_bucketOf.mpr hfe
  have hgb : g.path ∈ bucketOf (staticEntries files) f.content.length :=
    mem_bucketOf.mpr hge
  have hblen : 1 < (bucketOf (staticEntries files) f.content.length).length :=
    one_lt_length_of_two_mem hne hfb hgb
  have hbmem : (f.content.length, bucketOf (staticEntries files) f.content.length) ∈
      (search (staticEntries files)).sizeMap := search_sizeMap_exists hkey
  have hbstat : ∀ p ∈ bucketOf (staticEntries files) f.content.length,
      ∃ c, staticFS files p = .ok c ∧ c.length = f.content.length :=
    fun p hp => static_bucket_intact hnd (mem_bucketOf.mp hp)
  have hreadf : readBytes (staticFS files f.path) = f.content := by
    rw [staticFS_eq hnd hf, readBytes_ok]
  have hreadg : readBytes (staticFS files g.path) = f.content := by
    rw [staticFS_eq hnd hg, readBytes_ok, hcont]
  have hmain : ∃ G0,
      ((f.content.length ≤ buffersize ∧
        G0 ∈ specFullBufferedGroups (staticFS files)
          (bucketOf (staticEntries files) f.content.length)) ∨
       (¬ f.content.length ≤ buffersize ∧
        G0 ∈ specTwoTierGroups (staticFS files)
          (bucketOf (staticEntries files) f.content.length))) ∧
      f.path ∈ G0 ∧ g.path ∈ G0 := by
    by_cases hsz : f.content.length ≤ buffersize
    · have h1 : (f.path, f.content.take buffersize) ∈
          (bucketOf (staticEntries files) f.content.length).map
            (fun p => (p, (readBytes (staticFS files p)).take buffersize)) :=
        List.mem_map.mpr ⟨f.path, hfb, by rw [hreadf]⟩
      have h2 : (g.path, f.content.take buffersize) ∈
          (bucketOf (staticEntries files) f.content.length).map
            (fun p => (p, (readBytes (staticFS files p)).take buffersize)) :=
        List.mem_map.mpr ⟨g.path, hgb, by rw [hreadg]⟩
      obtain ⟨G0, hG0, hfg, hgg⟩ := mem_groupPairs_pair h1 h2
      refine ⟨G0, Or.inl ⟨hsz, ?_⟩, hfg, hgg⟩
      exact List.mem_filter.mpr
        ⟨hG0, decide_eq_true (one_lt_length_of_two_mem hne hfg hgg)⟩
    · have h1 : (f.path, specSampleFP f.content) ∈
          (bucketOf (staticEntries files) f.content.length).map
            (fun p => (p, specSampleFP (readBytes (staticFS files p)))) :=
        List.mem_map.mpr ⟨f.path, hfb, by rw [hreadf]⟩
      have h2 : (g.path, specSampleFP f.content) ∈
          (bucketOf (staticEntries files) f.content.length).map
            (fun p => (p, specSampleFP (readBytes (staticFS files p)))) :=
        List.mem_map.mpr ⟨g.path, hgb, by rw [hreadg]⟩
      obtain ⟨T, hT, hfT, hgT⟩ := mem_groupPairs_pair h1 h2
      have hTf : T ∈ (groupPairs
          ((bucketOf (staticEntries files) f.content.length).map
            (fun p => (p, specSampleFP (readBytes (staticFS files p)))))).filter
          (fun g2 => decide (1 < g2.length)) :=
        List.mem_filter.mpr
          ⟨hT, decide_eq_true (one_lt_length_of_two_mem hne hfT hgT)⟩
      have h3 : (f.path, f.content) ∈ T.map (fun p => (p, readBytes (staticFS files p))) :=
        List.mem_map.mpr ⟨f.path, hfT, by rw [hreadf]⟩
      have h4 : (g.path, f.content) ∈ T.map (fun p => (p, readBytes (staticFS files p))) :=
        List.mem_map.mpr ⟨g.path, hgT, by rw [hreadg]⟩
      obtain ⟨G0, hG0, hfg, hgg⟩ := mem_groupPairs_pair h3 h4
      refine ⟨G0, Or.inr ⟨hsz, ?_⟩, hfg, hgg⟩
      unfold specTwoTierGroups
      refine List.mem_flatten.mpr ⟨_, List.mem_map_of_mem _ hTf, ?_⟩
      exact List.mem_filter.mpr
        ⟨hG0, decide_eq_true (one_lt_length_of_two_mem hne hfg hgg)⟩
  obtain ⟨G0, hG0o, hfg, hgg⟩ := hmain
  obtain ⟨rec, hrec, hrp⟩ :=
    processBuckets_complete _ _ _ _ _ hpb hbmem hblen hbstat hG0o
  refine ⟨rec, ?_, ?_, ?_⟩
  · rw [hgr]; exact hrec
  · rw [hrp]; exact (List.mem_insertionSort _).mpr hfg
  · rw [hrp]; exact (List.mem_insertionSort _).mpr hgg

/-- C2 witness: the two identical files of the demo set land in one group. -/
theorem C2_completeness_witness :
    ((demoDup.map SFile.path).Nodup) ∧
    runStatic demoDup bufZero = .ok demoReport ∧
    ∃ G ∈ demoReport.groups,
      (⟨1, [3, 1, 4]⟩ : SFile).path ∈ G.paths ∧
      (⟨2, [3, 1, 4]⟩ : SFile).path ∈ G.paths :=
  ⟨by decide, by decide,
    C2_completeness demoDup bufZero demoReport (by decide) (by decide)
      ⟨1, [3, 1, 4]⟩ ⟨2, [3, 1, 4]⟩ (by decide) (by decide)
      (by decide) (by decide) (by decide)⟩

/-- C3: membership in an emitted DuplicateGroup implies byte-for-byte equal
content (the digest is modelled collision-free, matching the spec's
acceptance of full-tier hash equality as authoritative); consequently two
files with different content — in particular a decoy large file agreeing on
head and tail samples but differing in between — never share a group. -/
theorem C3_soundness (files : List SFile) (buf : List Nat) (r : Report)
    (hnd : (files.map SFile.path).Nodup) (hr : runStatic files buf = .ok r) :
    (∀ G ∈ r.groups, ∀ p q, p ∈ G.paths → q ∈ G.paths →
      contentOf files p = contentOf files q) ∧
    (∀ f g, f ∈ files → g ∈ files → f.content ≠ g.content →
      ∀ G ∈ r.groups, ¬ (f.path ∈ G.paths ∧ g.path ∈ G.paths)) := by
  obtain ⟨out, hpb, hgr, _, _, _, _, _⟩ := dfs_processBuckets hr
  have hsound := processBuckets_sound _ _ _ _ _ hpb (static_sizeMap_intact hnd)
  constructor
  · intro G hG p q hp hq
    have hred := hsound G (hgr ▸ hG) p q hp hq
    rw [contentOf_eq files p, contentOf_eq files q] at hred
    exact hred
  · rintro f g hf hg hneq G hG ⟨hfp, hgp⟩
    have hred := hsound G (hgr ▸ hG) f.path g.path hfp hgp
    rw [contentOf_eq files f.path, contentOf_eq files g.path,
      contentOf_path hnd hf, contentOf_path hnd hg] at hred
    exact hneq hred

/-- C3 witness: group membership implies content equality on the demo run. -/
theorem C3_soundness_witness :
    ((demoDup.map SFile.path).Nodup) ∧
    runStatic demoDup bufZero = .ok demoReport ∧
    (∀ G ∈ demoReport.groups, ∀ p q, p ∈ G.paths → q ∈ G.paths →
      contentOf demoDup p = contentOf demoDup q) :=
  ⟨by decide, by decide,
    (C3_soundness demoDup bufZero demoReport (by decide) (by decide)).1⟩

/-- C5: on a bucket of files whose hashing-time size is uniformly the
bucketed size, the full-buffered tier is used exactly when every candidate's
size is at most the buffer threshold, and its size-2-or-more sub-groups are
final; otherwise the sampling tier runs first and only its size-2-or-more
sub-groups are re-hashed by the full-streamed tier, whose size-2-or-more
sub-groups are the final DuplicateGroups. -/
theorem C5_tier_rule (fsys : FS) (s : Nat) (b : List Nat) (buf : List Nat)
    (hne : b ≠ [])
    (hstat : ∀ p ∈ b, ∃ c, fsys p = .ok c ∧ c.length = s) :
    ((∀ p ∈ b, ∃ c, fsys p = .ok c ∧ c.length ≤ buffersize) →
      hash_check fsys b buf =
        .ok (specFullBufferedGroups fsys b, (smallPass fsys b buf).2)) ∧
    (¬ (∀ p ∈ b, ∃ c, fsys p = .ok c ∧ c.length ≤ buffersize) →
      ∃ buf2, hash_check fsys b buf = .ok (specTwoTierGroups fsys b, buf2)) := by
  cases b with
  | nil => exact absurd rfl hne
  | cons p0 rest =>
    obtain ⟨c0, hc0, hcl⟩ := hstat p0 (List.mem_cons_self p0 rest)
    have hss : statSize (fsys p0) = .ok s := by
      rw [hc0]
      simp [statSize, hcl]
    constructor
    · intro hall
      obtain ⟨c0b, hc0b, hlb⟩ := hall p0 (List.mem_cons_self p0 rest)
      have hceq : c0b = c0 := by
        have h0 := hc0.symm.trans hc0b
        injection h0 with h0
        exact h0.symm
      have hsz : s ≤ buffersize := by
        rw [← hcl, ← hceq]
        exact hlb
      exact hash_check_small fsys buf hss hsz
    · intro hnall
      have hsz : ¬ s ≤ buffersize := by
        intro hle
        refine hnall (fun p hp => ?_)
        obtain ⟨c, hc, hclp⟩ := hstat p hp
        exact ⟨c, hc, by rw [hclp]; exact hle⟩
      have h512 : ∀ p ∈ p0 :: rest, halfsize ≤ (readBytes (fsys p)).length := by
        intro p hp
        obtain ⟨c, hc, hclp⟩ := hstat p hp
        rw [hc]
        simp only [readBytes]
        have hlt : buffersize < c.length := by
          rw [hclp]
          exact Nat.lt_of_not_le hsz
        have hh : halfsize ≤ buffersize := by decide
        omega
      exact hash_check_large_spec fsys buf hss hsz h512

/-- C5 witness: a concrete small-file bucket takes the full-buffered tier. -/
theorem C5_tier_rule_witness :
    (([1, 2] : List Nat) ≠ []) ∧
    (∀ p ∈ ([1, 2] : List Nat), ∃ c, staticFS demoDup p = .ok c ∧ c.length = 3) ∧
    hash_check (staticFS demoDup) [1, 2] bufZero =
      .ok (specFullBufferedGroups (staticFS demoDup) [1, 2],
        (smallPass (staticFS demoDup) [1, 2] bufZero).2) := by
  have hstat : ∀ p ∈ ([1, 2] : List Nat),
      ∃ c, staticFS demoDup p = .ok c ∧ c.length = 3 := by
    intro p hp
    rcases List.mem_cons.mp hp with h1 | h2
    · subst h1
      exact ⟨[3, 1, 4], by decide, by decide⟩
    · simp only [List.mem_singleton] at h2
      subst h2
      exact ⟨[3, 1, 4], by decide, by decide⟩
  have hall : ∀ p ∈ ([1, 2] : List Nat),
      ∃ c, staticFS demoDup p = .ok c ∧ c.length ≤ buffersize := by
    intro p hp
    obtain ⟨c, hc, hcl⟩ := hstat p hp
    exact ⟨c, hc, by rw [hcl]; decide⟩
  exact ⟨by decide, hstat,
    (C5_tier_rule (staticFS demoDup) 3 [1, 2] bufZero (by decide) hstat).1 hall⟩

/-- C6: zero-byte files are never inserted into any size bucket (all bucket
keys are non-zero and an empty file's path is in no bucket, hence never
hashed and in no group); they are listed in the empty-file result, and the
three-empty-file run yields no groups, all three paths listed and 0 redundant
bytes. -/
theorem C6_empty_files (fsys : FS) (entries : List (Nat × Nat)) (buf : List Nat) :
    (∀ p, (p, 0) ∈ entries → p ∈ (search entries).emptyFiles) ∧
    (∀ pr ∈ (search entries).sizeMap, (pr.1 : Nat) ≠ 0) ∧
    ((entries.map Prod.fst).Nodup → ∀ p, (p, 0) ∈ entries →
      (∀ pr ∈ (search entries).sizeMap, p ∉ (pr.2 : List Nat)) ∧
      (∀ r, duplicate_file_search fsys entries buf = .ok r →
        ∀ G ∈ r.groups, p ∉ G.paths)) ∧
    runStatic scenario3 bufZero = .ok scenario3Report := by
  refine ⟨?_, ?_, ?_, by decide⟩
  · intro p hp
    exact mem_search_emptyFiles.mpr hp
  · intro pr hpr
    obtain ⟨sz, b⟩ := pr
    obtain ⟨hk, _⟩ := mem_search_sizeMap hpr
    exact (mem_sizeKeys.mp hk).2
  · intro hnd p hp0
    have hnotin : ∀ pr ∈ (search entries).sizeMap, p ∉ (pr.2 : List Nat) := by
      intro pr hpr hmem
      obtain ⟨sz, b⟩ := pr
      obtain ⟨hk, hb⟩ := mem_search_sizeMap hpr
      rw [hb] at hmem
      have hpe := mem_bucketOf.mp hmem
      have hz := snd_unique_of_fst_nodup hnd hp0 hpe
      exact (mem_sizeKeys.mp hk).2 hz.symm
    refine ⟨hnotin, ?_⟩
    intro r hr G hG hpG
    obtain ⟨out, hpb, hgr, _, _, _, _, _⟩ := dfs_processBuckets hr
    obtain ⟨b, hb, hsub, _, _, _⟩ := processBuckets_members _ _ _ _ _ hpb G (hgr ▸ hG)
    exact hnotin (G.size, b) hb (hsub p hpG)

/-- C6 witness: the empty-file properties on the three-empty-file set. -/
theorem C6_empty_files_witness :
    ((staticEntries scenario3).map Prod.fst).Nodup ∧
    ((1 : Nat), (0 : Nat)) ∈ staticEntries scenario3 ∧
    (1 : Nat) ∈ (search (staticEntries scenario3)).emptyFiles ∧
    (∀ pr ∈ (search (staticEntries scenario3)).sizeMap,
      (1 : Nat) ∉ (pr.2 : List Nat)) :=
  ⟨by decide, by decide,
    (C6_empty_files (staticFS scenario3) (staticEntries scenario3) bufZero).1 1
      (by decide),
    ((C6_empty_files (staticFS scenario3) (staticEntries scenario3) bufZero).2.2.1
      (by decide) 1 (by decide)).1⟩

end DupSearch

namespace DupSearch

/-- C9 (amended): when a file's current size disagrees with the bucketed
size, the file is never treated as failed, and the fingerprint covers exactly
the bytes actually read at the full-buffered tier (the `gcount()` bytes of
the one read), at the full-streamed tier (the concatenated `gcount()` bytes
of all chunk reads), and at the sampling tier for files still holding at
least `halfsize` bytes; a file shrunk below `halfsize` is instead hashed over
the fixed sample window, which then also contains stale bytes that were
never read from it (see the counterexample). -/
theorem C9_size_race_amended (fsys : FS) (l buf : List Nat) :
    ((smallPass fsys l buf).1 =
      l.map (fun p => (p, (readBytes (fsys p)).take buffersize))) ∧
    ((fullPass fsys l buf).1 = l.map (fun p => (p, readBytes (fsys p)))) ∧
    ((∀ p ∈ l, halfsize ≤ (readBytes (fsys p)).length) →
      (samplePass fsys l buf).1 =
        l.map (fun p => (p, specSampleFP (readBytes (fsys p))))) ∧
    (∀ f0 rest, l = f0 :: rest → ∀ n, statSize (fsys f0) = .ok n →
      ∃ out, hash_check fsys l buf = .ok out) := by
  refine ⟨smallPass_fst fsys l buf, fullPass_fst fsys l buf,
    fun h => samplePass_fst_ge fsys l buf h, ?_⟩
  rintro f0 rest rfl n hss
  by_cases hn : n ≤ buffersize
  · exact ⟨_, hash_check_small fsys buf hss hn⟩
  · exact ⟨_, hash_check_large fsys buf hss hn⟩

/-- C9 witness: the amended statement applied to a live 40000-byte file. -/
theorem C9_size_race_amended_witness :
    (∀ p ∈ ([1] : List Nat), halfsize ≤ (readBytes (fsysTrunc p)).length) ∧
    (samplePass fsysTrunc [1] bufZero).1 =
      [1].map (fun p => (p, specSampleFP (readBytes (fsysTrunc p)))) ∧
    statSize (fsysTrunc 1) = .ok 40000 ∧
    (∃ out, hash_check fsysTrunc [1] bufZero = .ok out) := by
  have hc1 : fsysTrunc 1 = .ok (List.replicate 40000 1) := rfl
  have h512 : ∀ p ∈ ([1] : List Nat), halfsize ≤ (readBytes (fsysTrunc p)).length := by
    intro p hp
    simp only [List.mem_singleton] at hp
    subst hp
    rw [hc1, readBytes_ok, List.length_replicate]
    decide
  have hss : statSize (fsysTrunc 1) = .ok 40000 := by
    rw [hc1]
    simp only [statSize, List.length_replicate]
  exact ⟨h512, (C9_size_race_amended fsysTrunc [1] bufZero).2.2.1 h512, hss,
    (C9_size_race_amended fsysTrunc [1] bufZero).2.2.2 1 [] rfl 40000 hss⟩

/-- C9 counterexample: the bucket of `entriesTrunc` (both files recorded at
40000 bytes) takes the sampling path, file 2 now holds only 300 bytes (its
observed read count differs from the recorded size), yet its sampling-tier
fingerprint is the full 1024-byte window — not the 300 bytes actually read,
refuting the claim that the fingerprint covers exactly the bytes read at
every tier. -/
theorem C9_counterexample :
    tierIsSmall fsysTrunc [1, 2] = some false ∧
    bucketOf entriesTrunc 40000 = [1, 2] ∧
    (2, 40000) ∈ entriesTrunc ∧
    (readBytes (fsysTrunc 2)).length = 300 ∧
    ((samplePass fsysTrunc [1, 2] bufZero).1.map Prod.snd).getD 1 [] ≠
      readBytes (fsysTrunc 2) := by
  have hc1 : fsysTrunc 1 = .ok (List.replicate 40000 1) := rfl
  have hc2 : fsysTrunc 2 = .ok (List.replicate 300 2) := rfl
  have hr1 : readBytes (fsysTrunc 1) = List.replicate 40000 1 := by
    rw [hc1, readBytes_ok]
  have hr2 : readBytes (fsysTrunc 2) = List.replicate 300 2 := by
    rw [hc2, readBytes_ok]
  refine ⟨?_, by decide, by decide, ?_, ?_⟩
  · simp only [tierIsSmall, hc1, statSize, List.length_replicate]
    decide
  · rw [hr2, List.length_replicate]
  · have hcond1 : halfsize ≤ (readBytes (fsysTrunc 1)).length := by
      rw [hr1, List.length_replicate]
      decide
    have hcond2 : ¬ halfsize ≤ (readBytes (fsysTrunc 2)).length := by
      rw [hr2, List.length_replicate]
      decide
    have hstep : (samplePass fsysTrunc [1, 2] bufZero).1.map Prod.snd =
        [(readBytes (fsysTrunc 1)).take halfsize ++ tailHalf (readBytes (fsysTrunc 1)),
         bufWrite ((readBytes (fsysTrunc 1)).take halfsize ++
           tailHalf (readBytes (fsysTrunc 1))) 0 (readBytes (fsysTrunc 2))] := by
      simp only [samplePass, if_pos hcond1, if_neg hcond2,
        sample_window bufZero hcond1, List.map_cons, List.map_nil]
    rw [hstep]
    have hget : ([(readBytes (fsysTrunc 1)).take halfsize ++
        tailHalf (readBytes (fsysTrunc 1)),
        bufWrite ((readBytes (fsysTrunc 1)).take halfsize ++
          tailHalf (readBytes (fsysTrunc 1))) 0 (readBytes (fsysTrunc 2))]).getD 1 [] =
        bufWrite ((readBytes (fsysTrunc 1)).take halfsize ++
          tailHalf (readBytes (fsysTrunc 1))) 0 (readBytes (fsysTrunc 2)) := rfl
    rw [hget]
    intro heq
    have hlw : (bufWrite ((readBytes (fsysTrunc 1)).take halfsize ++
        tailHalf (readBytes (fsysTrunc 1))) 0 (readBytes (fsysTrunc 2))).length =
        windowsize := by
      simp only [bufWrite, tailHalf, hr1, hr2, List.length_take, List.length_append,
        List.length_drop, List.length_replicate, List.take_replicate,
        List.drop_replicate]
      decide
    have hlen := congrArg List.length heq
    rw [hlw, hr2, List.length_replicate] at hlen
    exact absurd hlen (by decide)

end DupSearch
